import Mathlib

/-!
Verification of the HTTP lesson code in this repository: the notes REST API
and its regex router from Part 3 (`Notes/1_http/03-practical-projects.md`),
the object-table router and the body readers from Part 2, and the static
file server from Part 3.

The JavaScript is embedded shallowly:
* values produced by `JSON.parse` become the `Json` inductive type;
* each route handler of the notes API becomes a pure function from the list
  returned by `readNotes` and the parsed request body to a response paired
  with the optional array passed to `writeNotes` (`none` when `writeNotes`
  is not called);
* `JSON.parse` itself is Node library code and appears as an abstract
  parameter `jparse : String → Option Json` (`none` models a throw);
* Node's posix `path.normalize` and `path.join` are implemented over
  character lists, following the algorithm of Node's `normalizeString`.
-/

/-- JSON values, the results of `JSON.parse`.  Numbers are modelled as
integers; the lesson code never does arithmetic on body fields. -/
inductive Json where
  | null
  | bool (b : Bool)
  | num (n : Int)
  | str (s : String)
  | arr (xs : List Json)
  | obj (kvs : List (String × Json))

/-- JavaScript truthiness of a JSON value: `null`, `false`, `0` and the
empty string are falsy, everything else (including empty arrays and
objects) is truthy. -/
def Json.truthy : Json → Bool
  | .null => false
  | .bool b => b
  | .num n => n != 0
  | .str s => s != ""
  | .arr _ => true
  | .obj _ => true

/-- Truthiness of a possibly-undefined value; `undefined` (`none`) is
falsy. -/
def truthyOpt : Option Json → Bool
  | none => false
  | some j => j.truthy

/-- JavaScript property read `o[k]` (also the field binding done by object
destructuring) on a non-null value: `undefined` (`none`) unless `o` is an
object carrying the key. -/
def Json.dget : Json → String → Option Json
  | .obj kvs, k => (kvs.find? (fun kv => kv.1 == k)).map (fun kv => kv.2)
  | _, _ => none

/-- Whether a JSON value is `null`.  Property access and destructuring on
`null` throw a `TypeError` in JavaScript, so the handlers below branch to
`Resp.crash` in that case. -/
def Json.isNull : Json → Bool
  | .null => true
  | _ => false

/-- Whether a JSON value is an object. -/
def Json.isObj : Json → Bool
  | .obj _ => true
  | _ => false

/-- A response sent with the router's `res.json(data, status)` helper, or a
crash: an uncaught `TypeError` thrown inside the handler, which rejects the
`handle` promise so that no response is written at all. -/
inductive Resp where
  | json (status : Nat) (body : Json)
  | crash

/-- A stored note.  `POST /notes` always creates exactly the six fields
below; `PUT` and `PATCH` only ever reassign `title`, `content`, `tags` and
`updatedAt`, so every note in `data/notes.json` has this shape.  `title`,
`content` and `tags` are `Json` because `PATCH` copies body fields without
validating their type. -/
structure Note where
  id : String
  title : Json
  content : Json
  tags : Json
  createdAt : String
  updatedAt : String

/-- The JSON object the API sends back for a note (field order as created
by the object literal in `POST /notes`). -/
def Note.toJson (n : Note) : Json :=
  .obj [("id", .str n.id), ("title", n.title), ("content", n.content),
        ("tags", n.tags), ("createdAt", .str n.createdAt), ("updatedAt", .str n.updatedAt)]

/-- `res.json({ success: false, error: 'Note not found' }, 404)`. -/
def noteNotFound : Resp :=
  .json 404 (.obj [("success", .bool false), ("error", .str "Note not found")])

/-- `res.json({ success: false, error: msg }, 400)` as sent by the POST and
PUT validation branches. -/
def requiredErr (msg : String) : Resp :=
  .json 400 (.obj [("success", .bool false), ("error", .str msg)])

/-- `Array.isArray(tags) ? tags : [tags]`. -/
def toTagsArray : Json → Json
  | .arr xs => .arr xs
  | v => .arr [v]

/-- Whitespace for the purposes of `String.prototype.trim` (the common
ASCII cases; the lesson code only trims user-typed titles). -/
def isWsChar (c : Char) : Bool :=
  c = ' ' || c = '\t' || c = '\n' || c = '\r'

/-- `String.prototype.trim`: strip whitespace from both ends. -/
def jsTrim (s : String) : String :=
  ⟨((s.data.dropWhile isWsChar).reverse.dropWhile isWsChar).reverse⟩

/-- `Array.prototype.findIndex`: index of the first element satisfying the
predicate. -/
def jsFindIndex (p : α → Bool) : List α → Option Nat
  | [] => none
  | a :: l => if p a then some 0 else (jsFindIndex p l).map (· + 1)

/-- `GET /notes/:id`: `notes.find(n => n.id === req.params.id)`, answering
404 when absent. -/
def getNote (notes : List Note) (rid : String) : Resp :=
  match notes.find? (fun n => n.id == rid) with
  | none => noteNotFound
  | some n => .json 200 (.obj [("success", .bool true), ("data", n.toJson)])

/-- `POST /notes`: destructure `{ title, content, tags = [] }` from the
body (a `TypeError` crash when the body is JSON null), answer 400 when
`!title || !content`, otherwise build the new note from `title.trim()`,
`content.trim()` (`.trim()` on a truthy non-string throws) and append it;
the second component is the array handed to `writeNotes`.  `newId` stands
for `generateId()`, `created` and `updated` for the two
`new Date().toISOString()` calls. -/
def postNotes (notes : List Note) (body : Json) (newId created updated : String) :
    Resp × Option (List Note) :=
  if body.isNull then (.crash, none) else
  let title := body.dget "title"
  let content := body.dget "content"
  let tags := (body.dget "tags").getD (.arr [])
  if !truthyOpt title || !truthyOpt content then
    (requiredErr "Title and content are required", none)
  else
    match title, content with
    | some (.str t), some (.str c) =>
      let newNote : Note := ⟨newId, .str (jsTrim t), .str (jsTrim c), toTagsArray tags, created, updated⟩
      (.json 201 (.obj [("success", .bool true), ("data", newNote.toJson)]),
       some (notes ++ [newNote]))
    | _, _ => (.crash, none)

/-- `PUT /notes/:id`: `findIndex` first (404 when absent), then destructure
and validate the body, then replace the note at the found index with the
spread-updated one and write the whole array back. -/
def putNote (notes : List Note) (rid : String) (body : Json) (now : String) :
    Resp × Option (List Note) :=
  match jsFindIndex (fun n => n.id == rid) notes with
  | none => (noteNotFound, none)
  | some i =>
    if body.isNull then (.crash, none) else
    let title := body.dget "title"
    let content := body.dget "content"
    let tags := (body.dget "tags").getD (.arr [])
    if !truthyOpt title || !truthyOpt content then
      (requiredErr "Title and content are required for PUT", none)
    else
      match title, content, notes[i]? with
      | some (.str t), some (.str c), some old =>
        let n' : Note := { old with title := .str (jsTrim t), content := .str (jsTrim c),
                                    tags := toTagsArray tags, updatedAt := now }
        (.json 200 (.obj [("success", .bool true), ("data", n'.toJson)]),
         some (notes.set i n'))
      | _, _, _ => (.crash, none)

/-- `PATCH /notes/:id`: `findIndex` first (404 when absent), then copy each
of the allowed fields `title`, `content`, `tags` that is present
(`!== undefined`) in the body over the stored note (a member read on a JSON
null body throws), stamp `updatedAt`, and write the whole array back. -/
def patchNote (notes : List Note) (rid : String) (body : Json) (now : String) :
    Resp × Option (List Note) :=
  match jsFindIndex (fun n => n.id == rid) notes with
  | none => (noteNotFound, none)
  | some i =>
    if body.isNull then (.crash, none) else
    match notes[i]? with
    | none => (.crash, none)
    | some old =>
      let n' : Note :=
        { old with
          title := (body.dget "title").getD old.title
          content := (body.dget "content").getD old.content
          tags := (body.dget "tags").getD old.tags
          updatedAt := now }
      (.json 200 (.obj [("success", .bool true), ("data", n'.toJson)]),
       some (notes.set i n'))

/-- `DELETE /notes/:id`: `findIndex` (404 when absent), then
`notes.splice(index, 1)[0]` and write the remaining array back. -/
def deleteNote (notes : List Note) (rid : String) : Resp × Option (List Note) :=
  match jsFindIndex (fun n => n.id == rid) notes with
  | none => (noteNotFound, none)
  | some i =>
    match notes[i]? with
    | none => (.crash, none)
    | some deleted =>
      (.json 200 (.obj [("success", .bool true), ("data", deleted.toJson),
                        ("message", .str "Note deleted")]),
       some (notes.eraseIdx i))

theorem jsFindIndex_eq_none {p : α → Bool} {l : List α} :
    jsFindIndex p l = none ↔ ∀ a ∈ l, p a = false := by
  induction l with
  | nil => simp [jsFindIndex]
  | cons a l ih =>
    by_cases h : p a
    · simp [jsFindIndex, h]
    · simp [jsFindIndex, h, ih]

theorem jsFindIndex_some {p : α → Bool} {l : List α} {i : Nat}
    (h : jsFindIndex p l = some i) : ∃ a, l[i]? = some a ∧ p a = true := by
  induction l generalizing i with
  | nil => simp [jsFindIndex] at h
  | cons a l ih =>
    by_cases hp : p a
    · simp [jsFindIndex, hp] at h
      subst h
      exact ⟨a, by simp, hp⟩
    · simp [jsFindIndex, hp] at h
      obtain ⟨j, hj, rfl⟩ := h
      obtain ⟨b, hb, hpb⟩ := ih hj
      exact ⟨b, by simpa using hb, hpb⟩

theorem eraseIdx_getElem?_ge : ∀ (l : List α) (i j : Nat), i ≤ j →
    (l.eraseIdx i)[j]? = l[j + 1]? := by
  intro l
  induction l with
  | nil => intro i j _; simp [List.eraseIdx]
  | cons a l ih =>
    intro i j hij
    cases i with
    | zero => simp [List.eraseIdx]
    | succ i =>
      cases j with
      | zero => omega
      | succ j => simpa [List.eraseIdx] using ih i j (by omega)

/-- C3 (amended).  Failure handling of the notes API is atomic and goes no
further than basic status codes: a `GET`, `PUT`, `PATCH` or `DELETE` on an
id that is not in the store answers 404 with
`{ success: false, error: 'Note not found' }`; a `POST`, or a `PUT` on an
id that is in the store, whose non-null body lacks `title` or `content`
answers 400; a JSON-null body makes `POST` (and `PUT` on an id in the
store) throw instead of responding; in every one of these cases the second
component is `none`, i.e. `writeNotes` is not called and the stored file is
unchanged. -/
theorem notes_api_failure_handling
    (notes : List Note) (rid : String) (body : Json)
    (now newId created updated : String)
    (hmiss : ∀ n ∈ notes, (n.id == rid) = false)
    (hlack : body.dget "title" = none ∨ body.dget "content" = none)
    (hnn : body.isNull = false) :
    getNote notes rid = noteNotFound
    ∧ putNote notes rid body now = (noteNotFound, none)
    ∧ patchNote notes rid body now = (noteNotFound, none)
    ∧ deleteNote notes rid = (noteNotFound, none)
    ∧ postNotes notes body newId created updated
        = (requiredErr "Title and content are required", none)
    ∧ (∀ notes2 i, jsFindIndex (fun n => n.id == rid) notes2 = some i →
        putNote notes2 rid body now
          = (requiredErr "Title and content are required for PUT", none))
    ∧ postNotes notes Json.null newId created updated = (Resp.crash, none)
    ∧ (∀ notes2 i, jsFindIndex (fun n => n.id == rid) notes2 = some i →
        putNote notes2 rid Json.null now = (Resp.crash, none)) := by
  have hf : notes.find? (fun n => n.id == rid) = none :=
    List.find?_eq_none.mpr (by intro x hx; simp [hmiss x hx])
  have hidx : jsFindIndex (fun n => n.id == rid) notes = none :=
    jsFindIndex_eq_none.mpr hmiss
  refine ⟨?_, ?_, ?_, ?_, ?_, ?_, ?_, ?_⟩
  · simp [getNote, hf]
  · simp [putNote, hidx]
  · simp [patchNote, hidx]
  · simp [deleteNote, hidx]
  · rcases hlack with h | h
    · simp [postNotes, hnn, h, truthyOpt]
    · simp [postNotes, hnn, h, truthyOpt]
  · intro notes2 i hi
    rcases hlack with h | h
    · simp [putNote, hi, hnn, h, truthyOpt]
    · simp [putNote, hi, hnn, h, truthyOpt]
  · simp [postNotes, Json.isNull]
  · intro notes2 i hi
    simp [putNote, hi, Json.isNull]

/-- C3 fails as frozen: it demands status 400 for every `PUT /notes/:id`
whose body lacks `title` or `content`, but when the id is also missing the
code answers 404 first (`PUT` on an empty store with an empty-object body),
and a JSON-null body (the four-character request body `null`) lacks `title`
yet makes `POST /notes` throw a `TypeError` instead of answering 400. -/
theorem notes_api_failure_handling_cex :
    ((Json.obj []).dget "title" = none
      ∧ putNote [] "x1" (Json.obj []) "T0" = (noteNotFound, none)
      ∧ noteNotFound
          = .json 404 (.obj [("success", .bool false), ("error", .str "Note not found")]))
    ∧ (Json.null.dget "title" = none
      ∧ postNotes [] Json.null "id1" "T0" "T0" = (Resp.crash, none)) :=
  ⟨⟨rfl, rfl, rfl⟩, rfl, rfl⟩

theorem notes_api_failure_handling_witness :
    getNote [⟨"a", .str "t", .str "c", .arr [], "d", "d"⟩] "b" = noteNotFound
    ∧ deleteNote [⟨"a", .str "t", .str "c", .arr [], "d", "d"⟩] "b" = (noteNotFound, none)
    ∧ postNotes [⟨"a", .str "t", .str "c", .arr [], "d", "d"⟩]
        (.obj [("content", .str "c")]) "i" "d" "d"
        = (requiredErr "Title and content are required", none) := by
  have h := notes_api_failure_handling
    [⟨"a", .str "t", .str "c", .arr [], "d", "d"⟩] "b" (.obj [("content", .str "c")])
    "n" "i" "d" "d" (by intro n hn; simp at hn; subst hn; rfl) (Or.inl rfl) rfl
  exact ⟨h.1, h.2.2.2.1, h.2.2.2.2.1⟩

/-- C4.  The notes API's only persistence is the flat JSON array: every
successful mutating operation takes the array read by `readNotes`, applies
its single change, and hands the whole updated array to `writeNotes` —
`POST` appends exactly the one new note, `PUT` and `PATCH` replace exactly
the note at the found index leaving every other position unchanged, and
`DELETE` removes exactly that one position — so after each completed
operation the file holds exactly the current list of notes. -/
theorem notes_api_flat_json_write
    (notes : List Note) (rid : String) (body : Json)
    (now newId created updated : String) :
    (∀ t c, body.dget "title" = some (.str t) → body.dget "content" = some (.str c) →
      t ≠ "" → c ≠ "" →
      (postNotes notes body newId created updated).2
        = some (notes ++ [Note.mk newId (.str (jsTrim t)) (.str (jsTrim c))
            (toTagsArray ((body.dget "tags").getD (.arr []))) created updated]))
    ∧ (∀ i t c, jsFindIndex (fun n => n.id == rid) notes = some i →
        body.dget "title" = some (.str t) → body.dget "content" = some (.str c) →
        t ≠ "" → c ≠ "" →
        ∃ old n', notes[i]? = some old
          ∧ n' = { old with
                    title := .str (jsTrim t)
                    content := .str (jsTrim c)
                    tags := toTagsArray ((body.dget "tags").getD (.arr []))
                    updatedAt := now }
          ∧ (putNote notes rid body now).2 = some (notes.set i n')
          ∧ (notes.set i n').length = notes.length
          ∧ (∀ j, j ≠ i → (notes.set i n')[j]? = notes[j]?))
    ∧ (∀ i, jsFindIndex (fun n => n.id == rid) notes = some i →
        body.isNull = false →
        ∃ old n', notes[i]? = some old
          ∧ n' = { old with
                    title := (body.dget "title").getD old.title
                    content := (body.dget "content").getD old.content
                    tags := (body.dget "tags").getD old.tags
                    updatedAt := now }
          ∧ (patchNote notes rid body now).2 = some (notes.set i n')
          ∧ (notes.set i n').length = notes.length
          ∧ (∀ j, j ≠ i → (notes.set i n')[j]? = notes[j]?))
    ∧ (∀ i, jsFindIndex (fun n => n.id == rid) notes = some i →
        ∃ deleted, notes[i]? = some deleted
          ∧ (deleteNote notes rid).2 = some (notes.eraseIdx i)
          ∧ (notes.eraseIdx i).length = notes.length - 1
          ∧ (∀ j, j < i → (notes.eraseIdx i)[j]? = notes[j]?)
          ∧ (∀ j, i ≤ j → (notes.eraseIdx i)[j]? = notes[j + 1]?)) := by
  refine ⟨?_, ?_, ?_, ?_⟩
  · intro t c ht hc htne hcne
    simp [postNotes, ht, hc, truthyOpt, Json.truthy, htne, hcne,
      (by cases body <;> first | rfl | simp [Json.dget] at ht : body.isNull = false)]
  · intro i t c hi ht hc htne hcne
    obtain ⟨old, hold, _⟩ := jsFindIndex_some hi
    refine ⟨old, _, hold, rfl, ?_, by simp, ?_⟩
    · simp [putNote, hi, ht, hc, truthyOpt, Json.truthy, htne, hcne, hold,
        (by cases body <;> first | rfl | simp [Json.dget] at ht : body.isNull = false)]
    · intro j hj
      exact List.getElem?_set_ne (fun h => hj h.symm)
  · intro i hi hnn
    obtain ⟨old, hold, _⟩ := jsFindIndex_some hi
    refine ⟨old, _, hold, rfl, ?_, by simp, ?_⟩
    · simp [patchNote, hi, hnn, hold]
    · intro j hj
      exact List.getElem?_set_ne (fun h => hj h.symm)
  · intro i hi
    obtain ⟨old, hold, _⟩ := jsFindIndex_some hi
    have hlen : i < notes.length := by
      by_contra hge
      simp [List.getElem?_eq_none (by omega : notes.length ≤ i)] at hold
    refine ⟨old, hold, ?_, by simp [List.length_eraseIdx, hlen], ?_, ?_⟩
    · simp [deleteNote, hi, hold]
    · intro j hj
      exact List.getElem?_eraseIdx_of_lt notes i j hj
    · intro j hj
      exact eraseIdx_getElem?_ge notes i j hj

theorem notes_api_flat_json_write_witness :
    (postNotes [⟨"a", .str "t", .str "c", .arr [], "d", "d"⟩]
        (.obj [("title", .str "t2"), ("content", .str "c2")]) "i2" "d2" "e2").2
      = some [⟨"a", .str "t", .str "c", .arr [], "d", "d"⟩,
              ⟨"i2", .str "t2", .str "c2", .arr [], "d2", "e2"⟩]
    ∧ (deleteNote [⟨"a", .str "t", .str "c", .arr [], "d", "d"⟩] "a").2 = some [] := by
  have h := notes_api_flat_json_write
    [⟨"a", .str "t", .str "c", .arr [], "d", "d"⟩] "a"
    (.obj [("title", .str "t2"), ("content", .str "c2")]) "n" "i2" "d2" "e2"
  constructor
  · have := h.1 "t2" "c2" rfl rfl (by decide) (by decide)
    simpa [jsTrim, isWsChar] using this
  · obtain ⟨deleted, _, hw, _⟩ := h.2.2.2 0 rfl
    simpa using hw

/-- C10.  `PATCH /notes/:id` on an existing note changes only the fields
`title`, `content` and `tags` copied from the request body plus
`updatedAt`: the note's `id` and `createdAt` are unchanged, every other
note in the store is unchanged, and body fields outside the allowed list
`['title', 'content', 'tags']` are ignored — two bodies with the same
`title`, `content` and `tags` lookups (and the same nullity) produce the
same outcome. -/
theorem patch_frame
    (notes : List Note) (rid : String) (body : Json) (now : String) (i : Nat)
    (hidx : jsFindIndex (fun n => n.id == rid) notes = some i)
    (hnn : body.isNull = false) :
    ∃ old n', notes[i]? = some old
      ∧ n' = { old with
                title := (body.dget "title").getD old.title
                content := (body.dget "content").getD old.content
                tags := (body.dget "tags").getD old.tags
                updatedAt := now }
      ∧ patchNote notes rid body now
          = (.json 200 (.obj [("success", .bool true), ("data", n'.toJson)]),
             some (notes.set i n'))
      ∧ n'.id = old.id ∧ n'.createdAt = old.createdAt ∧ n'.updatedAt = now
      ∧ (notes.set i n').length = notes.length
      ∧ (∀ j, j ≠ i → (notes.set i n')[j]? = notes[j]?)
      ∧ (∀ body2, body2.isNull = false →
          body2.dget "title" = body.dget "title" →
          body2.dget "content" = body.dget "content" →
          body2.dget "tags" = body.dget "tags" →
          patchNote notes rid body2 now = patchNote notes rid body now) := by
  obtain ⟨old, hold, _⟩ := jsFindIndex_some hidx
  refine ⟨old, _, hold, rfl, ?_, rfl, rfl, rfl, by simp, ?_, ?_⟩
  · simp [patchNote, hidx, hnn, hold]
  · intro j hj
    exact List.getElem?_set_ne (fun h => hj h.symm)
  · intro body2 hnn2 h1 h2 h3
    simp [patchNote, hidx, hnn, hnn2, hold, h1, h2, h3]

theorem patch_frame_witness :
    ∃ old n',
      ([⟨"a", .str "t", .str "c", .arr [], "d0", "d0"⟩] : List Note)[0]? = some old
      ∧ n' = { old with
                title := ((Json.obj [("title", .str "t2"), ("zzz", .str "junk")]).dget "title").getD old.title
                content := ((Json.obj [("title", .str "t2"), ("zzz", .str "junk")]).dget "content").getD old.content
                tags := ((Json.obj [("title", .str "t2"), ("zzz", .str "junk")]).dget "tags").getD old.tags
                updatedAt := "d1" }
      ∧ patchNote [⟨"a", .str "t", .str "c", .arr [], "d0", "d0"⟩] "a"
            (Json.obj [("title", .str "t2"), ("zzz", .str "junk")]) "d1"
          = (.json 200 (.obj [("success", .bool true), ("data", n'.toJson)]),
             some ([⟨"a", .str "t", .str "c", .arr [], "d0", "d0"⟩].set 0 n'))
      ∧ n'.id = old.id ∧ n'.createdAt = old.createdAt ∧ n'.updatedAt = "d1"
      ∧ ([⟨"a", .str "t", .str "c", .arr [], "d0", "d0"⟩].set 0 n').length
          = ([⟨"a", .str "t", .str "c", .arr [], "d0", "d0"⟩] : List Note).length
      ∧ (∀ j, j ≠ 0 →
          ([⟨"a", .str "t", .str "c", .arr [], "d0", "d0"⟩].set 0 n')[j]?
            = ([⟨"a", .str "t", .str "c", .arr [], "d0", "d0"⟩] : List Note)[j]?)
      ∧ (∀ body2, body2.isNull = false →
          body2.dget "title" = (Json.obj [("title", .str "t2"), ("zzz", .str "junk")]).dget "title" →
          body2.dget "content" = (Json.obj [("title", .str "t2"), ("zzz", .str "junk")]).dget "content" →
          body2.dget "tags" = (Json.obj [("title", .str "t2"), ("zzz", .str "junk")]).dget "tags" →
          patchNote [⟨"a", .str "t", .str "c", .arr [], "d0", "d0"⟩] "a" body2 "d1"
            = patchNote [⟨"a", .str "t", .str "c", .arr [], "d0", "d0"⟩] "a"
                (Json.obj [("title", .str "t2"), ("zzz", .str "junk")]) "d1") :=
  patch_frame [⟨"a", .str "t", .str "c", .arr [], "d0", "d0"⟩] "a"
    (Json.obj [("title", .str "t2"), ("zzz", .str "junk")]) "d1" 0 rfl rfl

/-- Outcome of a promise-wrapped body reader: `resolved v` models
`resolve(v)`; the two rejection constructors model `reject(...)` in
`parseJSONBody` (`destroyedTooLarge` additionally records `req.destroy()`
having been called in the size branch). -/
inductive ReadResult where
  | resolved (v : Json)
  | destroyedTooLarge
  | rejectedInvalid

def ReadResult.isResolved : ReadResult → Bool
  | .resolved _ => true
  | _ => false

/-- `let body = ''; req.on('data', chunk => body += chunk.toString())`:
the accumulated body after all data events. -/
def concatChunks (chunks : List String) : String :=
  chunks.foldl (· ++ ·) ""

/-- Part 3 `Router.parseBody`: on `end`,
`try { resolve(JSON.parse(body)) } catch { resolve({}) }`.
`jparse` is the abstract `JSON.parse` (`none` models a throw). -/
def routerParseBody3 (jparse : String → Option Json) (chunks : List String) : ReadResult :=
  let body := concatChunks chunks
  match jparse body with
  | some v => .resolved v
  | none => .resolved (.obj [])

/-- Part 2 `Router.parseBody`: on `end`,
`try { resolve(body ? JSON.parse(body) : {}) } catch (e) { resolve({}) }`. -/
def routerParseBody2 (jparse : String → Option Json) (chunks : List String) : ReadResult :=
  let body := concatChunks chunks
  .resolved (if body = "" then .obj []
             else match jparse body with
                  | some v => v
                  | none => .obj [])

/-- The data-event loop of `parseJSONBody`: append each chunk, and after
each append destroy the request and stop when `body.length > 1e6`
(`none` = destroyed). -/
def accumulateLimited : List String → String → Option String
  | [], acc => some acc
  | c :: cs, acc =>
    let acc' := acc ++ c
    if acc'.length > 1000000 then none else accumulateLimited cs acc'

/-- Part 2 `parseJSONBody`: rejects `'Payload too large'` (after
`req.destroy()`) once the body exceeds 1e6 characters, and on `end`
resolves `body ? JSON.parse(body) : {}`, rejecting `'Invalid JSON'` when
the parse throws. -/
def parseJSONBody (jparse : String → Option Json) (chunks : List String) : ReadResult :=
  match accumulateLimited chunks "" with
  | none => .destroyedTooLarge
  | some body =>
    if body = "" then .resolved (.obj [])
    else
      match jparse body with
      | some v => .resolved v
      | none => .rejectedInvalid

theorem str_foldl_append (cs : List String) (a : String) :
    cs.foldl (· ++ ·) a = a ++ cs.foldl (· ++ ·) "" := by
  induction cs generalizing a with
  | nil => simp [String.append_empty]
  | cons c cs ih =>
    simp only [List.foldl_cons]
    rw [ih (a ++ c), ih ("" ++ c), String.empty_append, String.append_assoc]

theorem concatChunks_cons (c : String) (cs : List String) :
    concatChunks (c :: cs) = c ++ concatChunks cs := by
  simp only [concatChunks, List.foldl_cons]
  rw [str_foldl_append cs ("" ++ c), String.empty_append]

theorem accumulateLimited_no_overflow :
    ∀ (cs : List String) (acc : String),
      (acc ++ concatChunks cs).length ≤ 1000000 →
      accumulateLimited cs acc = some (acc ++ concatChunks cs) := by
  intro cs
  induction cs with
  | nil => intro acc h; simp [accumulateLimited, concatChunks, String.append_empty]
  | cons c cs ih =>
    intro acc h
    rw [concatChunks_cons, ← String.append_assoc] at h
    have hlen : (acc ++ c).length ≤ 1000000 := by
      have := String.length_append (acc ++ c) (concatChunks cs)
      omega
    simp only [accumulateLimited, if_neg (by omega : ¬ (acc ++ c).length > 1000000)]
    rw [ih (acc ++ c) h, String.append_assoc, ← concatChunks_cons]

/-- C5 (amended).  The request-body readers are promise-wrapped
stream-to-string parsers: each concatenates the string forms of all
received data chunks and on `end` resolves with the JSON-parse of the
accumulated string when that parse succeeds, resolving the empty object
when the accumulated body is the empty string — except that `parseJSONBody`
(Part 2) stops accumulating, destroys the request and rejects once the
accumulated body exceeds 1e6 characters, so its resolution clause holds
only within that limit. -/
theorem body_readers_stream_to_string
    (jparse : String → Option Json) (chunks : List String)
    (hempty : jparse "" = none) :
    (concatChunks chunks = "" →
      routerParseBody3 jparse chunks = .resolved (.obj [])
      ∧ routerParseBody2 jparse chunks = .resolved (.obj [])
      ∧ parseJSONBody jparse chunks = .resolved (.obj []))
    ∧ (∀ v, jparse (concatChunks chunks) = some v →
      routerParseBody3 jparse chunks = .resolved v
      ∧ routerParseBody2 jparse chunks = .resolved v
      ∧ ((concatChunks chunks).length ≤ 1000000 →
          parseJSONBody jparse chunks = .resolved v)) := by
  constructor
  · intro hb
    have hacc : accumulateLimited chunks "" = some (concatChunks chunks) := by
      have := accumulateLimited_no_overflow chunks ""
      rw [String.empty_append] at this
      exact this (by rw [hb]; decide)
    refine ⟨?_, ?_, ?_⟩
    · simp [routerParseBody3, hb, hempty]
    · simp [routerParseBody2, hb]
    · simp [parseJSONBody, hacc, hb]
  · intro v hv
    have hne : concatChunks chunks ≠ "" := by
      intro h; rw [h, hempty] at hv; exact Option.noConfusion hv
    refine ⟨?_, ?_, ?_⟩
    · simp [routerParseBody3, hv]
    · simp [routerParseBody2, hne, hv]
    · intro hlen
      have hacc : accumulateLimited chunks "" = some (concatChunks chunks) := by
        have := accumulateLimited_no_overflow chunks ""
        rw [String.empty_append] at this
        exact this hlen
      simp [parseJSONBody, hacc, hne, hv]

theorem parseJSONBody_single_chunk_too_large (jparse : String → Option Json)
    (s : String) (hs : s.length > 1000000) :
    (parseJSONBody jparse [s]).isResolved = false := by
  have h1 : ("" ++ s).length > 1000000 := by rw [String.empty_append]; exact hs
  have hacc : accumulateLimited [s] "" = none := by
    unfold accumulateLimited
    simp only [if_pos h1]
  simp [parseJSONBody, hacc, ReadResult.isResolved]

/-- C5 fails as frozen: `parseJSONBody` does not concatenate all chunks and
resolve for every request — on a single 1000001-character chunk it destroys
the request and rejects `'Payload too large'` instead of resolving. -/
theorem body_readers_stream_to_string_cex :
    (parseJSONBody (fun _ => some Json.null)
      [⟨List.replicate 1000001 'a'⟩]).isResolved = false :=
  parseJSONBody_single_chunk_too_large (fun _ => some Json.null) ⟨List.replicate 1000001 'a'⟩
    (by have hb : (⟨List.replicate 1000001 'a'⟩ : String).length = 1000001 :=
          List.length_replicate 1000001 'a'
        rw [hb]
        omega)

theorem body_readers_stream_to_string_witness :
    routerParseBody3 (fun s => if s = "[]" then some (Json.arr []) else none) ["[", "]"]
      = .resolved (.arr [])
    ∧ routerParseBody2 (fun s => if s = "[]" then some (Json.arr []) else none) ["[", "]"]
      = .resolved (.arr [])
    ∧ parseJSONBody (fun s => if s = "[]" then some (Json.arr []) else none) ["[", "]"]
      = .resolved (.arr []) := by
  have h := (body_readers_stream_to_string
    (fun s => if s = "[]" then some (Json.arr []) else none) ["[", "]"] (by rfl)).2
    (Json.arr []) (by rfl)
  exact ⟨h.1, h.2.1, h.2.2 (by decide)⟩

/-- C7 (amended).  The `Router.parseBody` readers accumulate every chunk
and always resolve regardless of total size, and `parseJSONBody` never
destroys the request while the accumulated body stays within 1e6
characters; but `parseJSONBody` does destroy the request and reject
`'Payload too large'` once the accumulated body exceeds 1e6 characters. -/
theorem body_reader_size_limits
    (jparse : String → Option Json) (chunks : List String)
    (hsz : (concatChunks chunks).length ≤ 1000000) :
    (∀ cs, (routerParseBody3 jparse cs).isResolved = true)
    ∧ (∀ cs, (routerParseBody2 jparse cs).isResolved = true)
    ∧ parseJSONBody jparse chunks ≠ .destroyedTooLarge := by
  have hacc : accumulateLimited chunks "" = some (concatChunks chunks) := by
    have := accumulateLimited_no_overflow chunks ""
    rw [String.empty_append] at this
    exact this hsz
  refine ⟨?_, ?_, ?_⟩
  · intro cs
    cases hj : jparse (concatChunks cs) <;>
      simp [routerParseBody3, hj, ReadResult.isResolved]
  · intro cs
    simp [routerParseBody2, ReadResult.isResolved]
  · unfold parseJSONBody
    rw [hacc]
    by_cases hb : concatChunks chunks = ""
    · simp [hb]
    · cases hj : jparse (concatChunks chunks) <;> simp [hb, hj]

theorem parseJSONBody_two_chunks_too_large (jparse : String → Option Json)
    (s t : String) (hs : s.length ≤ 1000000) (hst : s.length + t.length > 1000000) :
    parseJSONBody jparse [s, t] = .destroyedTooLarge := by
  have h1 : ¬ ("" ++ s).length > 1000000 := by rw [String.empty_append]; omega
  have h2 : (("" ++ s) ++ t).length > 1000000 := by
    rw [String.empty_append, String.length_append]; omega
  have hacc : accumulateLimited [s, t] "" = none := by
    unfold accumulateLimited
    simp only [if_neg h1]
    unfold accumulateLimited
    simp only [if_pos h2]
  simp [parseJSONBody, hacc]

/-- C7 fails as frozen: on two 600000-character chunks `parseJSONBody`
destroys the request and rejects on account of body size. -/
theorem body_reader_size_limits_cex :
    parseJSONBody (fun _ => some Json.null)
      [⟨List.replicate 600000 'b'⟩, ⟨List.replicate 600000 'b'⟩]
      = .destroyedTooLarge :=
  parseJSONBody_two_chunks_too_large (fun _ => some Json.null)
    ⟨List.replicate 600000 'b'⟩ ⟨List.replicate 600000 'b'⟩
    (by have hb : (⟨List.replicate 600000 'b'⟩ : String).length = 600000 :=
          List.length_replicate 600000 'b'
        rw [hb]
        omega)
    (by have hb : (⟨List.replicate 600000 'b'⟩ : String).length = 600000 :=
          List.length_replicate 600000 'b'
        rw [hb]
        omega)

theorem body_reader_size_limits_witness :
    (routerParseBody3 (fun _ => none) ["x1"]).isResolved = true
    ∧ parseJSONBody (fun _ => none) ["ab"] ≠ .destroyedTooLarge := by
  have h := body_reader_size_limits (fun _ => none) ["ab"] (by decide)
  exact ⟨h.1 ["x1"], h.2.2⟩

/-- C9 (amended).  The `Router.parseBody` helpers never reject: when JSON
parsing of the accumulated body throws they resolve the empty object, so a
malformed-JSON body is indistinguishable from an empty one; the handler
receives whatever JSON value the body parsed to, which is an object only
when the body was a JSON object (or empty or malformed). -/
theorem parseBody_never_rejects
    (jparse : String → Option Json) (chunks : List String)
    (hfail : jparse (concatChunks chunks) = none) :
    (∀ cs, (routerParseBody3 jparse cs).isResolved = true
         ∧ (routerParseBody2 jparse cs).isResolved = true)
    ∧ routerParseBody3 jparse chunks = .resolved (.obj [])
    ∧ routerParseBody2 jparse chunks = .resolved (.obj [])
    ∧ (jparse "" = none →
        routerParseBody3 jparse [] = .resolved (.obj [])
        ∧ routerParseBody2 jparse [] = .resolved (.obj [])) := by
  refine ⟨?_, ?_, ?_, ?_⟩
  · intro cs
    constructor
    · cases hj : jparse (concatChunks cs) <;>
        simp [routerParseBody3, hj, ReadResult.isResolved]
    · simp [routerParseBody2, ReadResult.isResolved]
  · simp [routerParseBody3, hfail]
  · by_cases hb : concatChunks chunks = "" <;> simp [routerParseBody2, hb, hfail]
  · intro hempty
    constructor
    · simp [routerParseBody3, concatChunks, hempty]
    · simp [routerParseBody2, concatChunks]

/-- C9 fails as frozen: a route handler does not always receive an object
for `req.body` — the five-character body `5` parses to the JSON number 5,
and `Router.parseBody` resolves with that non-object. -/
theorem parseBody_never_rejects_cex :
    routerParseBody3 (fun s => if s = "5" then some (Json.num 5) else none) ["5"]
      = .resolved (.num 5)
    ∧ (Json.num 5).isObj = false :=
  ⟨rfl, rfl⟩

theorem parseBody_never_rejects_witness :
    routerParseBody3 (fun _ => none) ["oops"] = .resolved (.obj [])
    ∧ routerParseBody2 (fun _ => none) ["oops"] = .resolved (.obj []) := by
  have h := parseBody_never_rejects (fun _ => none) ["oops"] rfl
  exact ⟨h.2.1, h.2.2.1⟩

/-- Result of a router's `handle(req, res)`: either an abstract registered
handler is invoked (`handled`), or the router itself writes a response
(a middleware that ended the response, or the 404 branch). -/
inductive DispatchResult (α : Type u) where
  | handled (h : α)
  | response (status : Nat) (body : Json)

def DispatchResult.selected : DispatchResult α → Option α
  | .handled h => some h
  | _ => none

def DispatchResult.is404 : DispatchResult α → Bool
  | .response 404 _ => true
  | _ => false

/-- `res.json({ success: false, error: 'Route not found' }, 404)` of the
Part 3 router. -/
def nfJson3 : Json := .obj [("success", .bool false), ("error", .str "Route not found")]

/-- `res.json({ error: 'Route not found' }, 404)` of the Part 2 router. -/
def nfJson2 : Json := .obj [("error", .str "Route not found")]

/-- A Part 3 route as stored by `addRoute`: the compiled
`new RegExp('^...$')` becomes an abstract matcher on the request pathname,
the handler stays abstract.  (`paramNames`/param extraction only shape the
`req.params` object passed to the abstract handler and are elided.) -/
structure Route3 (α : Type u) where
  pattern : String → Bool
  handler : α

/-- The Part 3 router's `this.routes = { GET: [], POST: [], PUT: [],
DELETE: [], PATCH: [] }`: an ordered route list per method. -/
structure Router3 (α : Type u) where
  GET : List (Route3 α)
  POST : List (Route3 α)
  PUT : List (Route3 α)
  DELETE : List (Route3 α)
  PATCH : List (Route3 α)

/-- `this.routes[req.method] || []`. -/
def Router3.table (r : Router3 α) (m : String) : List (Route3 α) :=
  if m = "GET" then r.GET
  else if m = "POST" then r.POST
  else if m = "PUT" then r.PUT
  else if m = "DELETE" then r.DELETE
  else if m = "PATCH" then r.PATCH
  else []

/-- Part 3 `Router.handle` after URL parsing: run the middlewares (each
modelled by whether it ended the response, and with what), return as soon
as one has ended it; otherwise scan the method's route list in order and
invoke the handler of the first route whose pattern matches the pathname;
if none matches, send the 404 JSON error. -/
def handle3 (mws : List (Option (Nat × Json))) (r : Router3 α)
    (method pathname : String) : DispatchResult α :=
  match mws.findSome? id with
  | some sb => .response sb.1 sb.2
  | none =>
    match (r.table method).find? (fun rt => rt.pattern pathname) with
    | some rt => .handled rt.handler
    | none => .response 404 nfJson3

/-- JavaScript object assignment `o[k] = v` on an insertion-ordered object
modelled as a key-value list: overwrite in place if the key exists,
otherwise append. -/
def objSet (t : List (String × α)) (k : String) (v : α) : List (String × α) :=
  if t.any (fun kv => kv.1 == k) then
    t.map (fun kv => if kv.1 == k then (k, v) else kv)
  else t ++ [(k, v)]

/-- JavaScript object read `o[k]`. -/
def objGet (t : List (String × α)) (k : String) : Option α :=
  (t.find? (fun kv => kv.1 == k)).map (fun kv => kv.2)

/-- The Part 2 router's `this.routes`: a plain object per method, keyed by
exact path. -/
structure Router2 (α : Type u) where
  GET : List (String × α)
  POST : List (String × α)
  PUT : List (String × α)
  DELETE : List (String × α)
  PATCH : List (String × α)

/-- `this.routes[req.method]?.[req.pathname]`'s method step: an unknown
method behaves like an empty table (optional chaining yields undefined). -/
def Router2.table (r : Router2 α) (m : String) : List (String × α) :=
  if m = "GET" then r.GET
  else if m = "POST" then r.POST
  else if m = "PUT" then r.PUT
  else if m = "DELETE" then r.DELETE
  else if m = "PATCH" then r.PATCH
  else []

/-- Part 2 `Router.handle` after URL parsing: look the exact pathname up in
the method's route object and invoke that handler, else send the 404 JSON
error.  (Its middlewares only log; the Part 2 handle has no
`writableEnded` early return, so they cannot affect dispatch.) -/
def handle2 (r : Router2 α) (method pathname : String) : DispatchResult α :=
  match objGet (r.table method) pathname with
  | some h => .handled h
  | none => .response 404 nfJson2

theorem find_first_of {β : Type u} {p : β → Bool} :
    ∀ (L : List β) (i : Nat) (hi : i < L.length),
      p (L.get ⟨i, hi⟩) = true →
      (∀ j (hj : j < i), p (L.get ⟨j, Nat.lt_trans hj hi⟩) = false) →
      L.find? p = some (L.get ⟨i, hi⟩)
  | [], i, hi => by simp at hi
  | a :: L, 0, hi => by
    intro hp _
    have hp' : p a = true := hp
    simp [List.find?_cons, hp']
  | a :: L, i + 1, hi => by
    intro hp hmin
    have ha : p a = false := hmin 0 (Nat.succ_pos i)
    have hrec := find_first_of L i (Nat.lt_of_succ_lt_succ hi) hp
      (fun j hj => hmin (j + 1) (Nat.succ_lt_succ hj))
    simp [List.find?_cons, ha, hrec]

/-- C1.  Route dispatch in both custom routers is a linear route-table
lookup.  Part 3: provided no middleware has ended the response, `handle`
invokes the handler of the first route (in registration order) of the
request method's table whose pattern matches the pathname, and answers the
404 `'Route not found'` JSON error when no route matches.  Part 2: the
object table holds at most one route per path, and `handle` invokes the
handler of the first (unique) entry whose path equals the pathname, with
the same 404 error when none matches. -/
theorem router_dispatch_first_match {α : Type u} (mws : List (Option (Nat × Json)))
    (r3 : Router3 α) (r2 : Router2 α) (method pathname : String)
    (hmw : ∀ x ∈ mws, x = none) :
    (∀ i (hi : i < (r3.table method).length),
      ((r3.table method).get ⟨i, hi⟩).pattern pathname = true →
      (∀ j (hj : j < i), ((r3.table method).get ⟨j, Nat.lt_trans hj hi⟩).pattern pathname = false) →
      handle3 mws r3 method pathname = .handled ((r3.table method).get ⟨i, hi⟩).handler)
    ∧ ((∀ rt ∈ r3.table method, rt.pattern pathname = false) →
      handle3 mws r3 method pathname = .response 404 nfJson3)
    ∧ (∀ i (hi : i < (r2.table method).length),
      ((r2.table method).get ⟨i, hi⟩).1 = pathname →
      (∀ j (hj : j < i), ((r2.table method).get ⟨j, Nat.lt_trans hj hi⟩).1 ≠ pathname) →
      handle2 r2 method pathname = .handled ((r2.table method).get ⟨i, hi⟩).2)
    ∧ ((∀ kv ∈ r2.table method, kv.1 ≠ pathname) →
      handle2 r2 method pathname = .response 404 nfJson2) := by
  have hm : mws.findSome? id = none := by
    rw [List.findSome?_eq_none_iff]
    intro x hx
    rw [hmw x hx]
    rfl
  refine ⟨?_, ?_, ?_, ?_⟩
  · intro i hi hp hmin
    have hf := find_first_of (p := fun rt => rt.pattern pathname) (r3.table method) i hi hp hmin
    simp [handle3, hm, hf]
  · intro hnone
    have hf : (r3.table method).find? (fun rt => rt.pattern pathname) = none :=
      List.find?_eq_none.mpr (by intro x hx; simp [hnone x hx])
    simp [handle3, hm, hf]
  · intro i hi hp hmin
    have hf := find_first_of (p := fun kv => kv.1 == pathname) (r2.table method) i hi
      (by simp only [beq_iff_eq]; exact hp)
      (by intro j hj; simp only [beq_eq_false_iff_ne, ne_eq]; exact hmin j hj)
    simp [handle2, objGet, hf]
  · intro hnone
    have hf : (r2.table method).find? (fun kv => kv.1 == pathname) = none :=
      List.find?_eq_none.mpr (by intro x hx; simp [hnone x hx])
    simp [handle2, objGet, hf]

theorem router_dispatch_first_match_witness :
    handle3 [] (⟨[⟨fun s => s == "/a", 1⟩, ⟨fun _ => true, 2⟩], [], [], [], []⟩ : Router3 Nat)
        "GET" "/a" = .handled 1
    ∧ handle3 [] (⟨[⟨fun s => s == "/a", 1⟩, ⟨fun _ => true, 2⟩], [], [], [], []⟩ : Router3 Nat)
        "POST" "/a" = .response 404 nfJson3
    ∧ handle2 (⟨[("/a", 5)], [], [], [], []⟩ : Router2 Nat) "GET" "/a" = .handled 5
    ∧ handle2 (⟨[("/a", 5)], [], [], [], []⟩ : Router2 Nat) "GET" "/b"
        = .response 404 nfJson2 := by
  have h1 := router_dispatch_first_match []
    (⟨[⟨fun s => s == "/a", 1⟩, ⟨fun _ => true, 2⟩], [], [], [], []⟩ : Router3 Nat)
    (⟨[("/a", 5)], [], [], [], []⟩ : Router2 Nat) "GET" "/a" (by simp)
  have h2 := router_dispatch_first_match []
    (⟨[⟨fun s => s == "/a", 1⟩, ⟨fun _ => true, 2⟩], [], [], [], []⟩ : Router3 Nat)
    (⟨[("/a", 5)], [], [], [], []⟩ : Router2 Nat) "POST" "/a" (by simp)
  have h3 := router_dispatch_first_match []
    (⟨[⟨fun s => s == "/a", 1⟩, ⟨fun _ => true, 2⟩], [], [], [], []⟩ : Router3 Nat)
    (⟨[("/a", 5)], [], [], [], []⟩ : Router2 Nat) "GET" "/b" (by simp)
  refine ⟨?_, ?_, ?_, ?_⟩
  · exact h1.1 0 (by decide) (by decide) (fun j hj => absurd hj (Nat.not_lt_zero j))
  · exact h2.2.1 (by intro rt hrt; simp [Router3.table] at hrt)
  · exact h1.2.2.1 0 (by decide) (by decide) (fun j hj => absurd hj (Nat.not_lt_zero j))
  · exact h3.2.2.2 (by intro kv hkv; simp [Router2.table] at hkv; simp [hkv])

/-- The regex metacharacters (and the `:` parameter marker) that must be
absent for `addRoute`'s compiled `new RegExp('^' + path + '$')` to match
exactly the literal path. -/
def regexMetaChars : List Char :=
  ['(', ')', '[', ']', '.', '*', '+', '?', '^', '$', '\\', '|',
   Char.ofNat 123, Char.ofNat 125]

/-- A path with no `:` parameter and no regex metacharacter. -/
def isLiteralPath (p : String) : Bool :=
  p.data.all (fun c => (c != ':') && !(regexMetaChars.contains c))

/-- The matcher compiled by Part 3 `addRoute` from a literal path: since
the path contains no `:` (no replacement happens) and no regex
metacharacter, `^path$` matches precisely the strings equal to `path`. -/
def litPattern (path : String) : String → Bool :=
  fun s => s == path

/-- The registration methods that exist on both routers (the Part 2 router
has no `patch` registration method). -/
inductive Meth where
  | get
  | post
  | put
  | delete

/-- The HTTP method string a registration method registers under. -/
def Meth.str : Meth → String
  | .get => "GET"
  | .post => "POST"
  | .put => "PUT"
  | .delete => "DELETE"

/-- Part 3 registration `addRoute(method, path, handler)` for a literal
path: push the compiled route onto the method's list. -/
def applyReg3 (r : Router3 α) : Meth → String → α → Router3 α
  | .get, p, h => { r with GET := r.GET ++ [⟨litPattern p, h⟩] }
  | .post, p, h => { r with POST := r.POST ++ [⟨litPattern p, h⟩] }
  | .put, p, h => { r with PUT := r.PUT ++ [⟨litPattern p, h⟩] }
  | .delete, p, h => { r with DELETE := r.DELETE ++ [⟨litPattern p, h⟩] }

/-- Part 2 registration `this.routes[METHOD][path] = handler`. -/
def applyReg2 (r : Router2 α) : Meth → String → α → Router2 α
  | .get, p, h => { r with GET := objSet r.GET p h }
  | .post, p, h => { r with POST := objSet r.POST p h }
  | .put, p, h => { r with PUT := objSet r.PUT p h }
  | .delete, p, h => { r with DELETE := objSet r.DELETE p h }

def build3 (regs : List (Meth × String × α)) : Router3 α :=
  regs.foldl (fun r x => applyReg3 r x.1 x.2.1 x.2.2) ⟨[], [], [], [], []⟩

def build2 (regs : List (Meth × String × α)) : Router2 α :=
  regs.foldl (fun r x => applyReg2 r x.1 x.2.1 x.2.2) ⟨[], [], [], [], []⟩

theorem Meth.str_inj : ∀ a b : Meth, a.str = b.str → a = b := by
  intro a b
  cases a <;> cases b <;> simp [Meth.str]

theorem applyReg3_table (r : Router3 α) (mt : Meth) (p : String) (h : α) (m : String) :
    (applyReg3 r mt p h).table m
      = if m = mt.str then r.table m ++ [⟨litPattern p, h⟩] else r.table m := by
  cases mt <;> simp only [applyReg3, Meth.str] <;>
    by_cases h1 : m = "GET" <;> by_cases h2 : m = "POST" <;> by_cases h3 : m = "PUT" <;>
      by_cases h4 : m = "DELETE" <;> by_cases h5 : m = "PATCH" <;>
        simp_all [Router3.table]

theorem applyReg2_table (r : Router2 α) (mt : Meth) (p : String) (h : α) (m : String) :
    (applyReg2 r mt p h).table m
      = if m = mt.str then objSet (r.table m) p h else r.table m := by
  cases mt <;> simp only [applyReg2, Meth.str] <;>
    by_cases h1 : m = "GET" <;> by_cases h2 : m = "POST" <;> by_cases h3 : m = "PUT" <;>
      by_cases h4 : m = "DELETE" <;> by_cases h5 : m = "PATCH" <;>
        simp_all [Router2.table]

theorem build3_go_table (regs : List (Meth × String × α)) :
    ∀ (r0 : Router3 α) (m : String),
      (regs.foldl (fun r x => applyReg3 r x.1 x.2.1 x.2.2) r0).table m
        = r0.table m
          ++ (regs.filter (fun x => x.1.str == m)).map
              (fun x => (⟨litPattern x.2.1, x.2.2⟩ : Route3 α)) := by
  induction regs with
  | nil => intro r0 m; simp
  | cons x regs ih =>
    intro r0 m
    simp only [List.foldl_cons, ih, applyReg3_table, List.filter_cons]
    by_cases hm : m = x.1.str
    · subst hm
      simp
    · have hm' : (x.1.str == m) = false := by
        simp only [beq_eq_false_iff_ne, ne_eq]
        exact fun hc => hm hc.symm
      simp [hm, hm']

theorem objSet_of_not_mem (t : List (String × α)) (k : String) (v : α)
    (h : ∀ kv ∈ t, kv.1 ≠ k) : objSet t k v = t ++ [(k, v)] := by
  have hany : t.any (fun kv => kv.1 == k) = false := by
    rw [List.any_eq_false]
    intro kv hkv
    simpa using h kv hkv
  unfold objSet
  simp [hany]

theorem build2_go_table (regs : List (Meth × String × α)) :
    ∀ (r0 : Router2 α) (m : String),
      (∀ x ∈ regs, x.1.str = m → ∀ kv ∈ r0.table m, kv.1 ≠ x.2.1) →
      regs.Pairwise (fun a b => a.1 = b.1 → a.2.1 ≠ b.2.1) →
      (regs.foldl (fun r x => applyReg2 r x.1 x.2.1 x.2.2) r0).table m
        = r0.table m
          ++ (regs.filter (fun x => x.1.str == m)).map (fun x => (x.2.1, x.2.2)) := by
  induction regs with
  | nil => intro r0 m _ _; simp
  | cons x regs ih =>
    intro r0 m hfresh hpw
    have hpw' : regs.Pairwise (fun a b => a.1 = b.1 → a.2.1 ≠ b.2.1) := hpw.of_cons
    have hhead : ∀ y ∈ regs, x.1 = y.1 → x.2.1 ≠ y.2.1 :=
      fun y hy => List.rel_of_pairwise_cons hpw hy
    simp only [List.foldl_cons]
    by_cases hm : m = x.1.str
    · have hset : (applyReg2 r0 x.1 x.2.1 x.2.2).table m = r0.table m ++ [(x.2.1, x.2.2)] := by
        rw [applyReg2_table, if_pos hm,
          objSet_of_not_mem _ _ _ (hfresh x (List.mem_cons_self x regs) hm.symm)]
      have hfresh' : ∀ y ∈ regs, y.1.str = m →
          ∀ kv ∈ (applyReg2 r0 x.1 x.2.1 x.2.2).table m, kv.1 ≠ y.2.1 := by
        intro y hy hym kv hkv
        rw [hset] at hkv
        rcases List.mem_append.mp hkv with hkv0 | hkv1
        · exact hfresh y (List.mem_cons_of_mem x hy) hym kv hkv0
        · simp only [List.mem_singleton] at hkv1
          subst hkv1
          exact hhead y hy (Meth.str_inj x.1 y.1 (hm.symm.trans hym.symm))
      rw [ih _ m hfresh' hpw', hset, List.filter_cons]
      have hmx : (x.1.str == m) = true := by simp [hm]
      simp [hmx, List.append_assoc]
    · have hset : (applyReg2 r0 x.1 x.2.1 x.2.2).table m = r0.table m := by
        rw [applyReg2_table, if_neg hm]
      have hfresh' : ∀ y ∈ regs, y.1.str = m →
          ∀ kv ∈ (applyReg2 r0 x.1 x.2.1 x.2.2).table m, kv.1 ≠ y.2.1 := by
        intro y hy hym kv hkv
        rw [hset] at hkv
        exact hfresh y (List.mem_cons_of_mem x hy) hym kv hkv
      rw [ih _ m hfresh' hpw', hset, List.filter_cons]
      have hmx : (x.1.str == m) = false := by
        simp only [beq_eq_false_iff_ne, ne_eq]
        exact fun hc => hm hc.symm
      simp [hmx]

theorem find_map_correspondence (pathname : String) :
    ∀ L : List (Meth × String × α),
      ((L.map (fun x => (⟨litPattern x.2.1, x.2.2⟩ : Route3 α))).find?
          (fun rt => rt.pattern pathname)).map Route3.handler
        = ((L.map (fun x => (x.2.1, x.2.2))).find? (fun kv => kv.1 == pathname)).map
            (fun kv => kv.2) := by
  intro L
  induction L with
  | nil => simp
  | cons x L ih =>
    simp only [List.map_cons]
    by_cases h : pathname = x.2.1
    · rw [List.find?_cons_of_pos _ (by simp [litPattern, h]),
        List.find?_cons_of_pos _ (by simp [h])]
      rfl
    · rw [List.find?_cons_of_neg _ (by simp [litPattern, h]),
        List.find?_cons_of_neg _
          (by simp only [beq_iff_eq]; exact fun hc => h hc.symm)]
      exact ih

/-- C8.  On route tables of distinct literal paths (no `:` parameter, no
regex metacharacter) registered through the methods available on both
routers, the Part 2 object-lookup router and the Part 3 regex-list router
are dispatch-equivalent: for every request method string and pathname both
select the same handler, and each sends its 404 response exactly when the
other does. -/
theorem routers_dispatch_equivalent {α : Type u} (regs : List (Meth × String × α))
    (hlit : ∀ x ∈ regs, isLiteralPath x.2.1 = true)
    (hdist : regs.Pairwise (fun a b => a.1 = b.1 → a.2.1 ≠ b.2.1))
    (method pathname : String) :
    (handle3 [] (build3 regs) method pathname).selected
      = (handle2 (build2 regs) method pathname).selected
    ∧ (handle3 [] (build3 regs) method pathname).is404
      = (handle2 (build2 regs) method pathname).is404 := by
  have h3t : (build3 regs).table method
      = ((regs.filter (fun x => x.1.str == method)).map
          (fun x => (⟨litPattern x.2.1, x.2.2⟩ : Route3 α))) := by
    have h := build3_go_table regs ⟨[], [], [], [], []⟩ method
    have h0 : (⟨[], [], [], [], []⟩ : Router3 α).table method = [] := by
      simp [Router3.table]
    rw [build3, h, h0, List.nil_append]
  have h2t : (build2 regs).table method
      = ((regs.filter (fun x => x.1.str == method)).map (fun x => (x.2.1, x.2.2))) := by
    have h0 : (⟨[], [], [], [], []⟩ : Router2 α).table method = [] := by
      simp [Router2.table]
    have h := build2_go_table regs ⟨[], [], [], [], []⟩ method
      (by intro x hx hxm kv hkv; rw [h0] at hkv; simp at hkv) hdist
    rw [build2, h, h0, List.nil_append]
  have hcorr := find_map_correspondence (α := α) pathname
    (regs.filter (fun x => x.1.str == method))
  have e3 : handle3 [] (build3 regs) method pathname
      = (match ((regs.filter (fun x => x.1.str == method)).map
            (fun x => (⟨litPattern x.2.1, x.2.2⟩ : Route3 α))).find?
              (fun rt => rt.pattern pathname) with
         | some rt => DispatchResult.handled rt.handler
         | none => DispatchResult.response 404 nfJson3) := by
    rw [handle3, h3t]
    rfl
  have e2 : handle2 (build2 regs) method pathname
      = (match ((regs.filter (fun x => x.1.str == method)).map
            (fun x => (x.2.1, x.2.2))).find? (fun kv => kv.1 == pathname) with
         | some kv => DispatchResult.handled kv.2
         | none => DispatchResult.response 404 nfJson2) := by
    rw [handle2, objGet, h2t]
    cases ((regs.filter (fun x => x.1.str == method)).map
      (fun x => (x.2.1, x.2.2))).find? (fun kv => kv.1 == pathname) <;> rfl
  rw [e3, e2]
  cases hf3 : ((regs.filter (fun x => x.1.str == method)).map
      (fun x => (⟨litPattern x.2.1, x.2.2⟩ : Route3 α))).find?
        (fun rt => rt.pattern pathname) with
  | none =>
    cases hf2 : ((regs.filter (fun x => x.1.str == method)).map
        (fun x => (x.2.1, x.2.2))).find? (fun kv => kv.1 == pathname) with
    | none => exact ⟨rfl, rfl⟩
    | some kv => rw [hf3, hf2] at hcorr; simp at hcorr
  | some rt =>
    cases hf2 : ((regs.filter (fun x => x.1.str == method)).map
        (fun x => (x.2.1, x.2.2))).find? (fun kv => kv.1 == pathname) with
    | none => rw [hf3, hf2] at hcorr; simp at hcorr
    | some kv =>
      rw [hf3, hf2] at hcorr
      simp at hcorr
      simp [DispatchResult.selected, DispatchResult.is404, hcorr]

theorem routers_dispatch_equivalent_witness :
    ((handle3 [] (build3 [(Meth.get, "/a", 1), (Meth.post, "/a", 2), (Meth.get, "/b", 3)])
        "GET" "/b").selected
      = (handle2 (build2 [(Meth.get, "/a", 1), (Meth.post, "/a", 2), (Meth.get, "/b", 3)])
        "GET" "/b").selected)
    ∧ ((handle3 [] (build3 [(Meth.get, "/a", 1), (Meth.post, "/a", 2), (Meth.get, "/b", 3)])
        "GET" "/zz").is404
      = (handle2 (build2 [(Meth.get, "/a", 1), (Meth.post, "/a", 2), (Meth.get, "/b", 3)])
        "GET" "/zz").is404) := by
  have hlit : ∀ x ∈ ([(Meth.get, "/a", 1), (Meth.post, "/a", 2), (Meth.get, "/b", 3)]
      : List (Meth × String × Nat)), isLiteralPath x.2.1 = true := by
    intro x hx
    simp only [List.mem_cons, List.mem_singleton] at hx
    rcases hx with rfl | rfl | rfl | hx
    · rfl
    · rfl
    · rfl
    · simp at hx
  have hdist : ([(Meth.get, "/a", 1), (Meth.post, "/a", 2), (Meth.get, "/b", 3)]
      : List (Meth × String × Nat)).Pairwise (fun a b => a.1 = b.1 → a.2.1 ≠ b.2.1) := by
    refine List.Pairwise.cons ?_ (List.Pairwise.cons ?_ (List.Pairwise.cons ?_ List.Pairwise.nil))
    · intro b hb
      simp only [List.mem_cons, List.mem_singleton] at hb
      rcases hb with rfl | rfl | hb
      · intro hc; exact absurd hc (by simp [Meth.str])
      · intro _; simp
      · simp at hb
    · intro b hb
      simp only [List.mem_singleton] at hb
      subst hb
      intro hc; exact absurd hc (by simp [Meth.str])
    · intro b hb
      simp at hb
  exact ⟨(routers_dispatch_equivalent _ hlit hdist "GET" "/b").1,
         (routers_dispatch_equivalent _ hlit hdist "GET" "/zz").2⟩

/-- The two-dot path segment `..`. -/
def ddSeg : List Char := ['.', '.']

/-- Split a character list at every `/` (so `a//b` gives an empty middle
segment, like Node's scan over separators). -/
def splitSlash : List Char → List (List Char)
  | [] => [[]]
  | c :: cs =>
    if c = '/' then [] :: splitSlash cs
    else
      match splitSlash cs with
      | s :: ss => (c :: s) :: ss
      | [] => [[c]]

/-- Join segments with single `/` separators (inverse of `splitSlash`). -/
def joinSegs : List (List Char) → List Char
  | [] => []
  | [s] => s
  | s :: ss => s ++ '/' :: joinSegs ss

/-- One step of Node's `normalizeString`: skip empty and `.` segments; on
`..` pop the last segment unless it is itself a kept `..`, keeping `..`
only when `allowAbove` (i.e. for relative paths); push any other
segment. -/
def normStep (allowAbove : Bool) (acc : List (List Char)) (seg : List Char) :
    List (List Char) :=
  if seg = [] ∨ seg = ['.'] then acc
  else if seg = ddSeg then
    if acc ≠ [] ∧ acc.getLast? ≠ some ddSeg then acc.dropLast
    else if allowAbove then acc ++ [ddSeg] else acc
  else acc ++ [seg]

def normSegs (allowAbove : Bool) (segs : List (List Char)) : List (List Char) :=
  segs.foldl (normStep allowAbove) []

/-- Node's posix `path.normalize` on character lists. -/
def posixNormalizeChars (cs : List Char) : List Char :=
  if cs = [] then ['.']
  else
    let isAbs := cs.head? == some '/'
    let trailing := cs.getLast? == some '/'
    let segs := normSegs (!isAbs) (splitSlash cs)
    if segs = [] then
      if isAbs then ['/'] else if trailing then ['.', '/'] else ['.']
    else
      let r := joinSegs segs
      let r' := if trailing then r ++ ['/'] else r
      if isAbs then '/' :: r' else r'

/-- Node's posix `path.join` of two parts: drop empty parts, join the rest
with `/`, normalize; `'.'` when nothing remains. -/
def posixJoinChars (a b : List Char) : List Char :=
  let j := if a = [] then b else if b = [] then a else a ++ '/' :: b
  if j = [] then ['.'] else posixNormalizeChars j

/-- `.replace(/^(\.\.(\/|\\|$))+/, '')`: repeatedly strip a leading `../`
or `..\`, and a bare trailing `..`. -/
def stripDotDot : List Char → List Char
  | c1 :: c2 :: c3 :: rest =>
    if c1 = '.' ∧ c2 = '.' ∧ (c3 = '/' ∨ c3 = '\\') then stripDotDot rest
    else c1 :: c2 :: c3 :: rest
  | [c1, c2] => if c1 = '.' ∧ c2 = '.' then [] else [c1, c2]
  | cs => cs

def posixNormalize (s : String) : String := ⟨posixNormalizeChars s.data⟩

def posixJoin (a b : String) : String := ⟨posixJoinChars a.data b.data⟩

def stripLeadingDotDot (s : String) : String := ⟨stripDotDot s.data⟩

/-- `String.prototype.startsWith`. -/
def jsStartsWith (s pre : String) : Bool := pre.data.isPrefixOf s.data

/-- What `fs.stat` can find at a path. -/
inductive FsEntry where
  | file (content : String)
  | dir
deriving DecidableEq

/-- The static file server's possible responses (headers beyond the status
and the ETag comparison are elided; `ok` records which file's contents are
sent). -/
inductive StaticResp where
  | methodNotAllowed
  | forbidden
  | notFound
  | listing (dir : String)
  | notModified
  | ok (path : String) (content : String)
  | serverError
deriving DecidableEq

/-- `serveFile`: read the file (500 on error, e.g. a directory), answer 304
when the client's `If-None-Match` equals the content's ETag, else 200 with
the contents.  `etagOf` abstracts `crypto.createHash('md5')`. -/
def serveFileM (fs : String → Option FsEntry) (etagOf : String → String)
    (inm : Option String) (p : String) : StaticResp :=
  match fs p with
  | some (.file c) => if inm = some (etagOf c) then .notModified else .ok p c
  | _ => .serverError

/-- The static file server's request handler.  `urlPath` stands for
`decodeURIComponent(req.url.split('?')[0])` (the property below quantifies
over every decoded path): 405 for non-GET; strip leading `..` sequences
from the normalized path; join with `PUBLIC_DIR`; 403 when the joined path
does not start with `PUBLIC_DIR`, before any filesystem access; then stat
(404 on error), serve directories via `index.html` or a listing, and files
via `serveFileM`. -/
def handleStatic (pub : String) (fs : String → Option FsEntry)
    (etagOf : String → String) (method urlPath : String)
    (inm : Option String) : StaticResp :=
  if method ≠ "GET" then .methodNotAllowed
  else
    let safePath := stripLeadingDotDot (posixNormalize urlPath)
    let filePath := posixJoin pub safePath
    if ¬ jsStartsWith filePath pub then .forbidden
    else
      match fs filePath with
      | none => .notFound
      | some .dir =>
        let indexPath := posixJoin filePath "index.html"
        if (fs indexPath).isSome then serveFileM fs etagOf inm indexPath
        else .listing filePath
      | some (.file _) => serveFileM fs etagOf inm filePath

/-- `p` is the directory `pub` itself or lies strictly under it. -/
def underDir (pub p : String) : Prop :=
  p = pub ∨ (pub ++ "/").data.isPrefixOf p.data

/-- A clean path segment: nonempty, not `.` or `..`, and without `/`. -/
def cleanSeg (s : List Char) : Prop :=
  s ≠ [] ∧ s ≠ ['.'] ∧ s ≠ ddSeg ∧ '/' ∉ s

instance : DecidablePred cleanSeg := fun s => by
  unfold cleanSeg
  infer_instance

theorem splitSlash_ne_nil : ∀ cs : List Char, splitSlash cs ≠ []
  | [] => by simp [splitSlash]
  | c :: cs => by
    by_cases h : c = '/'
    · simp [splitSlash, h]
    · simp only [splitSlash, if_neg h]
      cases hs : splitSlash cs with
      | nil => simp
      | cons s ss => simp

theorem splitSlash_slash (cs : List Char) :
    splitSlash ('/' :: cs) = [] :: splitSlash cs := by
  simp [splitSlash]

theorem splitSlash_cons_ne (c : Char) (cs : List Char) (h : c ≠ '/') :
    ∃ s ss, splitSlash cs = s :: ss ∧ splitSlash (c :: cs) = (c :: s) :: ss := by
  cases hs : splitSlash cs with
  | nil => exact absurd hs (splitSlash_ne_nil cs)
  | cons s ss =>
    refine ⟨s, ss, rfl, ?_⟩
    simp [splitSlash, h, hs]

theorem splitSlash_append (xs ys : List Char) :
    splitSlash (xs ++ '/' :: ys) = splitSlash xs ++ splitSlash ys := by
  induction xs with
  | nil => simp [splitSlash]
  | cons c xs ih =>
    by_cases h : c = '/'
    · subst h
      simp only [List.cons_append, splitSlash_slash, ih, List.cons_append]
    · obtain ⟨s, ss, hs, hc⟩ := splitSlash_cons_ne c (xs ++ '/' :: ys) h
      rw [ih] at hs
      obtain ⟨s0, ss0, hs0, hc0⟩ := splitSlash_cons_ne c xs h
      rw [hs0] at hs
      simp only [List.cons_append] at hs
      rw [List.cons_append, hc, hc0]
      cases hs0' : splitSlash xs with
      | nil => exact absurd hs0' (splitSlash_ne_nil xs)
      | cons a b =>
        rw [hs0'] at hs0
        injection hs0 with h1 h2
        subst h1; subst h2
        injection hs with h3 h4
        subst h3
        simp [h4]

theorem splitSlash_no_slash : ∀ cs : List Char, (∀ c ∈ cs, c ≠ '/') →
    splitSlash cs = [cs]
  | [], _ => by simp [splitSlash]
  | c :: cs, h => by
    have hc : c ≠ '/' := h c (List.mem_cons_self c cs)
    obtain ⟨s, ss, hs, hcons⟩ := splitSlash_cons_ne c cs hc
    rw [splitSlash_no_slash cs (fun x hx => h x (List.mem_cons_of_mem c hx))] at hs
    injection hs with h1 h2
    subst h1; subst h2
    simpa using hcons

theorem splitSlash_mem_no_slash : ∀ (cs : List Char), ∀ s ∈ splitSlash cs, '/' ∉ s
  | [] => by simp [splitSlash]
  | c :: cs => by
    intro s hs
    by_cases h : c = '/'
    · subst h
      rw [splitSlash_slash] at hs
      rcases List.mem_cons.mp hs with rfl | hs'
      · simp
      · exact splitSlash_mem_no_slash cs s hs'
    · obtain ⟨s0, ss0, hs0, hcons⟩ := splitSlash_cons_ne c cs h
      rw [hcons] at hs
      rcases List.mem_cons.mp hs with rfl | hs'
      · intro hmem
        rcases List.mem_cons.mp hmem with h' | h'
        · exact h h'.symm
        · exact splitSlash_mem_no_slash cs s0 (by rw [hs0]; exact List.mem_cons_self s0 ss0) h'
      · exact splitSlash_mem_no_slash cs s (by rw [hs0]; exact List.mem_cons_of_mem s0 hs')

theorem joinSegs_cons (s : List Char) (ss : List (List Char)) (h : ss ≠ []) :
    joinSegs (s :: ss) = s ++ '/' :: joinSegs ss := by
  cases ss with
  | nil => exact absurd rfl h
  | cons t ts => rfl

theorem joinSegs_ne_nil : ∀ (P : List (List Char)), P ≠ [] →
    (∀ s ∈ P, s ≠ []) → joinSegs P ≠ []
  | [], h, _ => absurd rfl h
  | [s], _, hne => by simpa [joinSegs] using hne s (List.mem_singleton_self s)
  | s :: t :: ts, _, hne => by
    rw [joinSegs_cons s (t :: ts) (by simp)]
    intro hc
    have := hne s (List.mem_cons_self s (t :: ts))
    cases hs : s with
    | nil => exact this hs
    | cons a b => rw [hs] at hc; simp at hc

theorem joinSegs_append : ∀ (P Q : List (List Char)), P ≠ [] → Q ≠ [] →
    joinSegs (P ++ Q) = joinSegs P ++ '/' :: joinSegs Q
  | [], _, h, _ => absurd rfl h
  | [s], Q, _, hQ => by
    rw [List.singleton_append, joinSegs_cons s Q hQ]
    rfl
  | s :: t :: ts, Q, _, hQ => by
    rw [List.cons_append, joinSegs_cons s ((t :: ts) ++ Q) (by simp),
      joinSegs_cons s (t :: ts) (by simp),
      joinSegs_append (t :: ts) Q (by simp) hQ]
    simp

theorem splitSlash_joinSegs : ∀ (P : List (List Char)), P ≠ [] →
    (∀ s ∈ P, '/' ∉ s) → splitSlash (joinSegs P) = P
  | [], h, _ => absurd rfl h
  | [s], _, hns => by
    rw [show joinSegs [s] = s from rfl,
      splitSlash_no_slash s (fun c hc hce => hns s (List.mem_singleton_self s) (hce ▸ hc))]
  | s :: t :: ts, _, hns => by
    rw [joinSegs_cons s (t :: ts) (by simp), splitSlash_append,
      splitSlash_no_slash s
        (fun c hc hce => hns s (List.mem_cons_self s (t :: ts)) (hce ▸ hc)),
      splitSlash_joinSegs (t :: ts) (by simp)
        (fun x hx => hns x (List.mem_cons_of_mem s hx))]
    rfl

theorem joinSegs_splitSlash : ∀ cs : List Char, joinSegs (splitSlash cs) = cs
  | [] => rfl
  | c :: cs => by
    by_cases h : c = '/'
    · subst h
      rw [splitSlash_slash, joinSegs_cons [] (splitSlash cs) (splitSlash_ne_nil cs),
        joinSegs_splitSlash cs]
      rfl
    · obtain ⟨s, ss, hs, hcons⟩ := splitSlash_cons_ne c cs h
      rw [hcons]
      cases hss : ss with
      | nil =>
        rw [hss] at hs
        have := joinSegs_splitSlash cs
        rw [hs] at this
        simp only [joinSegs] at this ⊢
        rw [this]
      | cons a b =>
        rw [hss] at hs
        have hjoin := joinSegs_splitSlash cs
        rw [hs, joinSegs_cons s (a :: b) (by simp)] at hjoin
        rw [joinSegs_cons (c :: s) (a :: b) (by simp), List.cons_append, hjoin]

theorem joinSegs_getLast_ne_slash : ∀ (P : List (List Char)), P ≠ [] →
    (∀ s ∈ P, s ≠ [] ∧ '/' ∉ s) → (joinSegs P).getLast? ≠ some '/'
  | [], h, _ => absurd rfl h
  | [s], _, hc => by
    have ⟨hne, hns⟩ := hc s (List.mem_singleton_self s)
    show s.getLast? ≠ some '/'
    intro hlast
    exact hns (List.mem_of_mem_getLast? hlast)
  | s :: t :: ts, _, hc => by
    rw [joinSegs_cons s (t :: ts) (by simp)]
    have htail := joinSegs_getLast_ne_slash (t :: ts) (by simp)
      (fun x hx => hc x (List.mem_cons_of_mem s hx))
    have hne : joinSegs (t :: ts) ≠ [] :=
      joinSegs_ne_nil (t :: ts) (by simp)
        (fun x hx => (hc x (List.mem_cons_of_mem s hx)).1)
    rw [List.getLast?_append_of_ne_nil _ (by simp [hne] : '/' :: joinSegs (t :: ts) ≠ [])]
    cases hj : joinSegs (t :: ts) with
    | nil => exact absurd hj hne
    | cons a b =>
      rw [List.getLast?_cons_cons]
      rw [hj] at htail
      exact htail

/-- Segments that `normStep` keeps verbatim. -/
def keepSeg (s : List Char) : Bool := !(s == [] || s == ['.'])

theorem foldl_normStep_no_dd (ab : Bool) :
    ∀ (L : List (List Char)) (acc : List (List Char)),
      (∀ s ∈ L, s ≠ ddSeg) →
      L.foldl (normStep ab) acc = acc ++ L.filter keepSeg := by
  intro L
  induction L with
  | nil => intro acc _; simp
  | cons s L ih =>
    intro acc h
    have hs : s ≠ ddSeg := h s (List.mem_cons_self s L)
    have hL : ∀ x ∈ L, x ≠ ddSeg := fun x hx => h x (List.mem_cons_of_mem s hx)
    rw [List.foldl_cons, ih _ hL, List.filter_cons]
    by_cases hk : s = [] ∨ s = ['.']
    · have hkeep : keepSeg s = false := by
        rcases hk with rfl | rfl <;> rfl
      rw [hkeep]
      simp only [normStep, if_pos hk]
      simp
    · have hkeep : keepSeg s = true := by
        unfold keepSeg
        push_neg at hk
        simp [hk.1, hk.2]
      rw [hkeep]
      simp only [normStep, if_neg hk, if_neg hs]
      simp

theorem foldl_normStep_mem (ab : Bool) :
    ∀ (L : List (List Char)) (acc : List (List Char)) (x : List Char),
      x ∈ L.foldl (normStep ab) acc →
      x ∈ acc ∨ x = ddSeg ∨ (x ∈ L ∧ x ≠ [] ∧ x ≠ ['.']) := by
  intro L
  induction L with
  | nil => intro acc x hx; exact Or.inl hx
  | cons s L ih =>
    intro acc x hx
    rw [List.foldl_cons] at hx
    rcases ih (normStep ab acc s) x hx with hacc | hdd | hmem
    · unfold normStep at hacc
      split_ifs at hacc with h1 h2 h3 h4
      · exact Or.inl hacc
      · exact Or.inl ((List.dropLast_sublist acc).subset hacc)
      · rcases List.mem_append.mp hacc with h' | h'
        · exact Or.inl h'
        · simp only [List.mem_singleton] at h'
          exact Or.inr (Or.inl h')
      · exact Or.inl hacc
      · rcases List.mem_append.mp hacc with h' | h'
        · exact Or.inl h'
        · simp only [List.mem_singleton] at h'
          push_neg at h1
          exact Or.inr (Or.inr ⟨h' ▸ List.mem_cons_self _ _, h' ▸ h1.1, h' ▸ h1.2⟩)
    · exact Or.inr (Or.inl hdd)
    · exact Or.inr (Or.inr ⟨List.mem_cons_of_mem s hmem.1, hmem.2⟩)

theorem foldl_normStep_no_dd_of_not_above :
    ∀ (L : List (List Char)) (acc : List (List Char)),
      ddSeg ∉ acc → ddSeg ∉ L.foldl (normStep false) acc := by
  intro L
  induction L with
  | nil => intro acc h; exact h
  | cons s L ih =>
    intro acc h
    rw [List.foldl_cons]
    refine ih _ ?_
    unfold normStep
    split_ifs with h1 h2 h3 h4
    · exact h
    · exact fun hc => h ((List.dropLast_sublist acc).subset hc)
    · simp at h4
    · exact h
    · intro hc
      rcases List.mem_append.mp hc with hc0 | hc1
      · exact h hc0
      · exact h2 (List.mem_singleton.mp hc1).symm

/-- The output of `normSegs` is a run of `..` segments followed by
segments that are not `..`. -/
def DotdotLead (l : List (List Char)) : Prop :=
  ∃ k cl, l = List.replicate k ddSeg ++ cl ∧ ddSeg ∉ cl

theorem DotdotLead.of_cons_dd {l : List (List Char)} (h : DotdotLead (ddSeg :: l)) :
    DotdotLead l := by
  obtain ⟨k, cl, heq, hni⟩ := h
  cases k with
  | zero =>
    simp only [List.replicate, List.nil_append] at heq
    rw [← heq] at hni
    exact absurd (List.mem_cons_self _ _) hni
  | succ k =>
    rw [List.replicate_succ, List.cons_append] at heq
    injection heq with h1 h2
    exact ⟨k, cl, h2, hni⟩

theorem DotdotLead.of_tail_no_dd {s0 : List Char} {ss0 : List (List Char)}
    (h : ddSeg ∉ ss0) : DotdotLead (s0 :: ss0) := by
  by_cases hs : s0 = ddSeg
  · subst hs
    exact ⟨1, ss0, by simp [List.replicate], h⟩
  · refine ⟨0, s0 :: ss0, by simp, ?_⟩
    intro hc
    rcases List.mem_cons.mp hc with hdd | hdd
    · exact hs hdd.symm
    · exact h hdd

theorem normStep_dd_lead (ab : Bool) (acc : List (List Char)) (s : List Char)
    (h : DotdotLead acc) : DotdotLead (normStep ab acc s) := by
  obtain ⟨k, cl, heq, hni⟩ := h
  subst heq
  unfold normStep
  split_ifs with h1 h2 h3 h4
  · exact ⟨k, cl, rfl, hni⟩
  · obtain ⟨hne, hlast⟩ := h3
    rcases cl.eq_nil_or_concat with rfl | ⟨cl', a, rfl⟩
    · rw [List.append_nil] at hne hlast ⊢
      cases k with
      | zero => simp at hne
      | succ k =>
        rw [List.replicate_succ', List.getLast?_concat] at hlast
        exact absurd rfl hlast
    · simp only [List.concat_eq_append] at hni ⊢
      rw [← List.append_assoc, List.dropLast_concat]
      exact ⟨k, cl', rfl, fun hc => hni (List.mem_append_left _ hc)⟩
  · push_neg at h3
    by_cases hnil : List.replicate k ddSeg ++ cl = []
    · rw [hnil]
      exact ⟨1, [], by simp [List.replicate], by simp⟩
    · have hlast := h3 hnil
      have hcl : cl = [] := by
        rcases cl.eq_nil_or_concat with rfl | ⟨cl', a, rfl⟩
        · rfl
        · simp only [List.concat_eq_append] at hni hlast
          rw [← List.append_assoc, List.getLast?_concat] at hlast
          have ha : a = ddSeg := Option.some.inj hlast
          exact absurd (List.mem_append_right cl' (ha ▸ List.mem_singleton_self a)) hni
      subst hcl
      rw [List.append_nil, ← List.replicate_succ']
      exact ⟨k + 1, [], by simp, by simp⟩
  · exact ⟨k, cl, rfl, hni⟩
  · exact ⟨k, cl ++ [s], by rw [List.append_assoc],
      fun hc => (List.mem_append.mp hc).elim (fun h => hni h)
        (fun h => h2 (List.mem_singleton.mp h).symm)⟩

theorem foldl_normStep_dd_lead (ab : Bool) :
    ∀ (L : List (List Char)) (acc : List (List Char)), DotdotLead acc →
      DotdotLead (L.foldl (normStep ab) acc) := by
  intro L
  induction L with
  | nil => intro acc h; exact h
  | cons s L ih =>
    intro acc h
    rw [List.foldl_cons]
    exact ih _ (normStep_dd_lead ab acc s h)

theorem normSegs_dd_lead (ab : Bool) (L : List (List Char)) :
    DotdotLead (normSegs ab L) :=
  foldl_normStep_dd_lead ab L [] ⟨0, [], by simp, by simp⟩

theorem DotdotLead_of_no_dd {l : List (List Char)} (h : ddSeg ∉ l) : DotdotLead l :=
  ⟨0, l, by simp, h⟩

theorem DotdotLead_append_single {l : List (List Char)} {x : List Char}
    (h : DotdotLead l) (hx : x ≠ ddSeg) : DotdotLead (l ++ [x]) := by
  obtain ⟨k, cl, rfl, hni⟩ := h
  refine ⟨k, cl ++ [x], by rw [List.append_assoc], ?_⟩
  intro hc
  rcases List.mem_append.mp hc with h' | h'
  · exact hni h'
  · exact hx (List.mem_singleton.mp h').symm

theorem splitSlash_joined (segs : List (List Char)) (hne : segs ≠ [])
    (hmem : ∀ s ∈ segs, s ≠ [] ∧ '/' ∉ s) (trailing : Bool) :
    splitSlash (if trailing then joinSegs segs ++ ['/'] else joinSegs segs)
      = segs ++ (if trailing then [[]] else []) := by
  cases trailing
  · rw [if_neg (by simp), if_neg (by simp)]
    rw [splitSlash_joinSegs segs hne (fun s hs => (hmem s hs).2)]
    simp
  · rw [if_pos rfl, if_pos rfl]
    rw [show joinSegs segs ++ ['/'] = joinSegs segs ++ '/' :: [] from rfl, splitSlash_append,
      splitSlash_joinSegs segs hne (fun s hs => (hmem s hs).2)]
    rfl

theorem normSegs_mem_clean (ab : Bool) (cs : List Char) :
    ∀ s ∈ normSegs ab (splitSlash cs), s ≠ [] ∧ '/' ∉ s := by
  intro s hs
  rcases foldl_normStep_mem ab (splitSlash cs) [] s hs with h | h | h
  · simp at h
  · subst h
    exact ⟨by decide, by decide⟩
  · exact ⟨h.2.1, splitSlash_mem_no_slash cs s h.1⟩

theorem normalizeChars_dd_lead (cs : List Char) :
    DotdotLead (splitSlash (posixNormalizeChars cs)) := by
  by_cases h0 : cs = []
  · rw [posixNormalizeChars, if_pos h0]
    exact ⟨0, [['.']], by decide, by decide⟩
  · rw [posixNormalizeChars, if_neg h0]
    dsimp only
    by_cases hsegs : normSegs (!(cs.head? == some '/')) (splitSlash cs) = []
    · rw [if_pos hsegs]
      by_cases habs : (cs.head? == some '/') = true
      · rw [if_pos habs]
        exact ⟨0, [[], []], by decide, by decide⟩
      · rw [if_neg habs]
        by_cases htr : (cs.getLast? == some '/') = true
        · rw [if_pos htr]
          exact ⟨0, [['.'], []], by decide, by decide⟩
        · rw [if_neg htr]
          exact ⟨0, [['.']], by decide, by decide⟩
    · rw [if_neg hsegs]
      have hmem := normSegs_mem_clean (!(cs.head? == some '/')) cs
      have hsplit := splitSlash_joined _ hsegs hmem (cs.getLast? == some '/')
      by_cases habs : (cs.head? == some '/') = true
      · rw [if_pos habs, splitSlash_slash, hsplit]
        have hff : (!(cs.head? == some '/')) = false := by rw [habs]; rfl
        have hnodd : ddSeg ∉ normSegs (!(cs.head? == some '/')) (splitSlash cs) := by
          rw [hff]
          exact foldl_normStep_no_dd_of_not_above (splitSlash cs) [] (by simp)
        refine DotdotLead_of_no_dd ?_
        intro hc
        rcases List.mem_cons.mp hc with h' | h'
        · exact (by decide : ddSeg ≠ ([] : List Char)) h'
        · rcases List.mem_append.mp h' with h'' | h''
          · exact hnodd h''
          · by_cases htr : (cs.getLast? == some '/') = true <;> simp [htr] at h''
            · exact (by decide : ddSeg ≠ ([] : List Char)) h''
      · rw [if_neg habs, hsplit]
        by_cases htr : (cs.getLast? == some '/') = true
        · simpa [htr] using DotdotLead_append_single
            (normSegs_dd_lead (!(cs.head? == some '/')) (splitSlash cs)) (by decide)
        · simpa [htr] using normSegs_dd_lead (!(cs.head? == some '/')) (splitSlash cs)

theorem no_dd_of_lead_default (cs : List Char) (h : DotdotLead (splitSlash cs))
    (hslash : ∀ r, cs ≠ '.' :: '.' :: '/' :: r) (hdd : cs ≠ ddSeg) :
    ddSeg ∉ splitSlash cs := by
  intro hmem
  obtain ⟨k, cl, heq, hni⟩ := h
  cases k with
  | zero =>
    rw [heq] at hmem
    simp only [List.replicate, List.nil_append] at hmem
    exact hni hmem
  | succ k =>
    have hsplit : splitSlash cs = ddSeg :: (List.replicate k ddSeg ++ cl) := by
      rw [heq, List.replicate_succ, List.cons_append]
    have hjoin := joinSegs_splitSlash cs
    rw [hsplit] at hjoin
    rcases hX : List.replicate k ddSeg ++ cl with _ | ⟨x, xs⟩
    · rw [hX] at hjoin
      simp only [joinSegs] at hjoin
      exact hdd hjoin.symm
    · rw [hX, joinSegs_cons _ _ (by simp)] at hjoin
      exact hslash _ hjoin.symm

theorem stripDotDot_no_dd : ∀ cs : List Char, DotdotLead (splitSlash cs) →
    ddSeg ∉ splitSlash (stripDotDot cs)
  | [] => fun _ => by
    rw [show stripDotDot [] = [] from rfl]
    decide
  | [c1] => fun _ => by
    rw [show stripDotDot [c1] = [c1] from rfl]
    by_cases h1 : c1 = '/'
    · subst h1
      decide
    · rw [splitSlash_no_slash [c1] (by intro c hc; simp at hc; subst hc; exact h1)]
      intro hc
      simp only [List.mem_singleton] at hc
      exact (by simp [ddSeg] : ¬ (ddSeg = [c1])) hc
  | [c1, c2] => fun h => by
    by_cases hc : c1 = '.' ∧ c2 = '.'
    · rw [show stripDotDot [c1, c2] = [] from by simp only [stripDotDot, if_pos hc]]
      decide
    · rw [show stripDotDot [c1, c2] = [c1, c2] from by simp only [stripDotDot, if_neg hc]]
      refine no_dd_of_lead_default [c1, c2] h ?_ ?_
      · intro r hr
        simp at hr
      · intro he
        simp only [ddSeg] at he
        injection he with e1 he'
        injection he' with e2 _
        exact hc ⟨e1, e2⟩
  | c1 :: c2 :: c3 :: rest => fun h => by
    by_cases hc : c1 = '.' ∧ c2 = '.' ∧ (c3 = '/' ∨ c3 = '\\')
    · rw [show stripDotDot (c1 :: c2 :: c3 :: rest) = stripDotDot rest from by
        simp only [stripDotDot, if_pos hc]]
      obtain ⟨e1, e2, hc3⟩ := hc
      subst e1
      subst e2
      rcases hc3 with rfl | rfl
      · apply stripDotDot_no_dd rest
        have hsp : splitSlash ('.' :: '.' :: '/' :: rest) = ddSeg :: splitSlash rest := by
          rw [show ('.' :: '.' :: '/' :: rest : List Char) = ddSeg ++ '/' :: rest from rfl,
            splitSlash_append, splitSlash_no_slash ddSeg (by decide)]
          rfl
        rw [hsp] at h
        exact h.of_cons_dd
      · apply stripDotDot_no_dd rest
        rcases hsr : splitSlash rest with _ | ⟨s0, ss0⟩
        · exact absurd hsr (splitSlash_ne_nil rest)
        · obtain ⟨sA, ssA, hA, hAc⟩ := splitSlash_cons_ne '\\' rest (by decide)
          rw [hsr] at hA
          injection hA with e1 e2
          subst e1
          subst e2
          obtain ⟨sB, ssB, hB, hBc⟩ := splitSlash_cons_ne '.' ('\\' :: rest) (by decide)
          rw [hAc] at hB
          injection hB with e1 e2
          subst e1
          subst e2
          obtain ⟨sC, ssC, hCeq, hCc⟩ := splitSlash_cons_ne '.' ('.' :: '\\' :: rest) (by decide)
          rw [hBc] at hCeq
          injection hCeq with e1 e2
          subst e1
          subst e2
          rw [hCc] at h
          have hddss0 : ddSeg ∉ ss0 := by
            obtain ⟨k, cl, heq, hni⟩ := h
            cases k with
            | zero =>
              simp only [List.replicate, List.nil_append] at heq
              rw [← heq] at hni
              intro hmem
              exact hni (List.mem_cons_of_mem _ hmem)
            | succ k =>
              rw [List.replicate_succ, List.cons_append] at heq
              injection heq with e _
              simp [ddSeg] at e
          exact DotdotLead.of_tail_no_dd hddss0
    · rw [show stripDotDot (c1 :: c2 :: c3 :: rest) = c1 :: c2 :: c3 :: rest from by
        simp only [stripDotDot, if_neg hc]]
      refine no_dd_of_lead_default (c1 :: c2 :: c3 :: rest) h ?_ ?_
      · intro r hr
        injection hr with e1 hr'
        injection hr' with e2 hr''
        injection hr'' with e3 _
        exact hc ⟨e1, e2, Or.inl e3⟩
      · intro he
        simp [ddSeg] at he

theorem keepSeg_true_iff (s : List Char) : keepSeg s = true ↔ (s ≠ [] ∧ s ≠ ['.']) := by
  unfold keepSeg
  simp

theorem filter_keep_of_clean (P : List (List Char)) (hP : ∀ s ∈ P, cleanSeg s) :
    P.filter keepSeg = P :=
  List.filter_eq_self.mpr
    (fun s hs => (keepSeg_true_iff s).mpr ⟨(hP s hs).1, (hP s hs).2.1⟩)

theorem normalize_shape (cs : List Char) (h0 : cs ≠ []) (habs : cs.head? = some '/')
    (Q : List (List Char)) (hQ : splitSlash cs = [] :: Q)
    (hQdd : ∀ s ∈ Q, s ≠ ddSeg) (hfil : Q.filter keepSeg ≠ []) :
    posixNormalizeChars cs
      = '/' :: (if (cs.getLast? == some '/') = true
                then joinSegs (Q.filter keepSeg) ++ ['/']
                else joinSegs (Q.filter keepSeg)) := by
  rw [posixNormalizeChars, if_neg h0]
  dsimp only
  have habs' : (cs.head? == some '/') = true := by simp [habs]
  have hsegs : normSegs (!(cs.head? == some '/')) (splitSlash cs) = Q.filter keepSeg := by
    rw [habs', hQ]
    show List.foldl (normStep false) [] ([] :: Q) = Q.filter keepSeg
    rw [foldl_normStep_no_dd false ([] :: Q) [] ?_]
    · rw [List.nil_append, List.filter_cons]
      simp [keepSeg]
    · intro s hs
      rcases List.mem_cons.mp hs with rfl | hs'
      · decide
      · exact hQdd s hs'
  rw [hsegs, if_neg hfil, habs', if_pos rfl]

theorem posixJoin_under (P : List (List Char)) (hPne : P ≠ [])
    (hP : ∀ s ∈ P, cleanSeg s) (sp : List Char) (hsp : ddSeg ∉ splitSlash sp) :
    ∃ T, (∀ s ∈ T, cleanSeg s) ∧
      (posixJoinChars ('/' :: joinSegs P) sp = '/' :: joinSegs (P ++ T)
       ∨ posixJoinChars ('/' :: joinSegs P) sp = '/' :: joinSegs (P ++ T) ++ ['/']) := by
  have hpubne : ('/' :: joinSegs P : List Char) ≠ [] := by simp
  have hPmem : ∀ s ∈ P, s ≠ [] ∧ '/' ∉ s := fun s hs => ⟨(hP s hs).1, (hP s hs).2.2.2⟩
  have hsplitpub : splitSlash ('/' :: joinSegs P) = [] :: P := by
    rw [splitSlash_slash, splitSlash_joinSegs P hPne (fun s hs => (hP s hs).2.2.2)]
  have hjne : joinSegs P ≠ [] := joinSegs_ne_nil P hPne (fun s hs => (hP s hs).1)
  have hfilP : P.filter keepSeg = P := filter_keep_of_clean P hP
  by_cases hspnil : sp = []
  · subst hspnil
    refine ⟨[], by simp, Or.inl ?_⟩
    rw [posixJoinChars]
    rw [if_neg hpubne, if_pos rfl, if_neg hpubne]
    rw [normalize_shape _ hpubne rfl P hsplitpub (fun s hs => (hP s hs).2.2.1)
      (by rw [hfilP]; exact hPne)]
    have htr : (('/' :: joinSegs P).getLast? == some '/') = false := by
      have hl : ('/' :: joinSegs P).getLast? = (joinSegs P).getLast? := by
        rcases hj : joinSegs P with _ | ⟨y, ys⟩
        · exact absurd hj hjne
        · rw [List.getLast?_cons_cons]
      rw [hl]
      exact beq_eq_false_iff_ne.mpr (joinSegs_getLast_ne_slash P hPne hPmem)
    rw [htr, hfilP]
    simp
  · have hspS : ∀ s ∈ (splitSlash sp).filter keepSeg, cleanSeg s := by
      intro s hs
      have hmemS := List.mem_filter.mp hs
      have hk := (keepSeg_true_iff s).mp hmemS.2
      exact ⟨hk.1, hk.2, fun hc => hsp (hc ▸ hmemS.1),
        splitSlash_mem_no_slash sp s hmemS.1⟩
    refine ⟨(splitSlash sp).filter keepSeg, hspS, ?_⟩
    rw [posixJoinChars]
    rw [if_neg hpubne, if_neg hspnil]
    have hne2 : ('/' :: joinSegs P) ++ '/' :: sp ≠ [] := by simp
    rw [if_neg hne2]
    have hsplitj : splitSlash (('/' :: joinSegs P) ++ '/' :: sp)
        = [] :: (P ++ splitSlash sp) := by
      rw [splitSlash_append, hsplitpub]
      simp
    have hdd : ∀ s ∈ P ++ splitSlash sp, s ≠ ddSeg := by
      intro s hs
      rcases List.mem_append.mp hs with h' | h'
      · exact (hP s h').2.2.1
      · exact fun hc => hsp (hc ▸ h')
    have hfil : (P ++ splitSlash sp).filter keepSeg
        = P ++ (splitSlash sp).filter keepSeg := by
      rw [List.filter_append, hfilP]
    rw [normalize_shape _ hne2 rfl (P ++ splitSlash sp) hsplitj hdd
      (by rw [hfil]; simp [hPne])]
    rw [hfil]
    by_cases htr : ((('/' :: joinSegs P) ++ '/' :: sp).getLast? == some '/') = true
    · rw [if_pos htr]
      exact Or.inr rfl
    · rw [if_neg htr]
      exact Or.inl rfl

theorem underDir_of_shape (P T : List (List Char)) (hPne : P ≠ []) (fp : List Char)
    (h : fp = '/' :: joinSegs (P ++ T) ∨ fp = '/' :: joinSegs (P ++ T) ++ ['/']) :
    underDir ⟨'/' :: joinSegs P⟩ ⟨fp⟩ := by
  have hdata : (((⟨'/' :: joinSegs P⟩ : String) ++ "/").data) = '/' :: joinSegs P ++ ['/'] := rfl
  by_cases hT : T = []
  · subst hT
    rw [List.append_nil] at h
    rcases h with rfl | rfl
    · exact Or.inl rfl
    · refine Or.inr ?_
      rw [hdata]
      exact List.isPrefixOf_iff_prefix.mpr ⟨[], by simp⟩
  · have hj := joinSegs_append P T hPne hT
    rcases h with rfl | rfl
    · refine Or.inr ?_
      rw [hdata]
      refine List.isPrefixOf_iff_prefix.mpr ⟨joinSegs T, ?_⟩
      show '/' :: joinSegs P ++ ['/'] ++ joinSegs T = _
      simp [hj]
    · refine Or.inr ?_
      rw [hdata]
      refine List.isPrefixOf_iff_prefix.mpr ⟨joinSegs T ++ ['/'], ?_⟩
      show '/' :: joinSegs P ++ ['/'] ++ (joinSegs T ++ ['/']) = _
      simp [hj]

theorem join_index_shape (R : List (List Char)) (hRne : R ≠ [])
    (hR : ∀ s ∈ R, cleanSeg s) (fp : List Char)
    (hfp : fp = '/' :: joinSegs R ∨ fp = '/' :: joinSegs R ++ ['/']) :
    posixJoinChars fp ("index.html".data)
      = '/' :: joinSegs (R ++ ["index.html".data]) := by
  have hRns : ∀ s ∈ R, '/' ∉ s := fun s hs => (hR s hs).2.2.2
  have hsR : splitSlash ('/' :: joinSegs R) = [] :: R := by
    rw [splitSlash_slash, splitSlash_joinSegs R hRne hRns]
  have hfilR : R.filter keepSeg = R := filter_keep_of_clean R hR
  have hRdd : ∀ s ∈ R, s ≠ ddSeg := fun s hs => (hR s hs).2.2.1
  rcases hfp with rfl | rfl
  · rw [posixJoinChars]
    rw [if_neg (by simp : ¬ ('/' :: joinSegs R : List Char) = []),
      if_neg (by decide : ¬ ("index.html".data : List Char) = []),
      if_neg (by simp : ¬ ('/' :: joinSegs R : List Char) ++ '/' :: "index.html".data = [])]
    have hsj : splitSlash (('/' :: joinSegs R) ++ '/' :: "index.html".data)
        = [] :: (R ++ ["index.html".data]) := by
      rw [splitSlash_append, hsR, splitSlash_no_slash "index.html".data (by decide)]
      simp
    rw [normalize_shape _ (by simp) ?habs (R ++ ["index.html".data]) hsj ?hdd ?hfil]
    case habs => rfl
    case hdd =>
      intro s hs
      rcases List.mem_append.mp hs with h' | h'
      · exact hRdd s h'
      · simp only [List.mem_singleton] at h'
        subst h'
        decide
    case hfil =>
      rw [List.filter_append, hfilR]
      intro hc
      rw [List.append_eq_nil] at hc
      exact hRne hc.1
    have htr : ((('/' :: joinSegs R) ++ '/' :: "index.html".data).getLast?
        == some '/') = false := by
      rw [List.getLast?_append_of_ne_nil _ (by simp)]
      decide
    rw [htr, if_neg (by simp), List.filter_append, hfilR,
      (by decide : (["index.html".data] : List (List Char)).filter keepSeg
        = ["index.html".data])]
  · rw [posixJoinChars]
    rw [if_neg (by simp : ¬ ('/' :: joinSegs R ++ ['/'] : List Char) = []),
      if_neg (by decide : ¬ ("index.html".data : List Char) = []),
      if_neg (by simp : ¬ ('/' :: joinSegs R ++ ['/'] : List Char)
        ++ '/' :: "index.html".data = [])]
    have hsfp : splitSlash ('/' :: joinSegs R ++ ['/']) = ([] :: R) ++ [[]] := by
      rw [show ('/' :: joinSegs R ++ ['/'] : List Char)
          = ('/' :: joinSegs R) ++ '/' :: [] from by simp,
        splitSlash_append, hsR]
      rfl
    have hsj : splitSlash (('/' :: joinSegs R ++ ['/']) ++ '/' :: "index.html".data)
        = [] :: (R ++ [[], "index.html".data]) := by
      rw [splitSlash_append, hsfp, splitSlash_no_slash "index.html".data (by decide)]
      simp
    rw [normalize_shape _ (by simp) ?habs (R ++ [[], "index.html".data]) hsj ?hdd ?hfil]
    case habs =>
      rw [show ('/' :: joinSegs R ++ ['/'] : List Char) ++ '/' :: "index.html".data
        = '/' :: (joinSegs R ++ ['/'] ++ '/' :: "index.html".data) from by simp]
      rfl
    case hdd =>
      intro s hs
      rcases List.mem_append.mp hs with h' | h'
      · exact hRdd s h'
      · rcases List.mem_cons.mp h' with rfl | h''
        · decide
        · simp only [List.mem_singleton] at h''
          subst h''
          decide
    case hfil =>
      rw [List.filter_append, hfilR]
      intro hc
      rw [List.append_eq_nil] at hc
      exact hRne hc.1
    have htr : ((('/' :: joinSegs R ++ ['/']) ++ '/' :: "index.html".data).getLast?
        == some '/') = false := by
      rw [List.getLast?_append_of_ne_nil _ (by simp)]
      decide
    rw [htr, if_neg (by simp), List.filter_append, hfilR,
      (by decide : (([[], "index.html".data]) : List (List Char)).filter keepSeg
        = ["index.html".data])]

theorem handleStatic_ok_path (pub : String) (fs : String → Option FsEntry)
    (etagOf : String → String) (url : String) (inm : Option String) (p : String)
    (c : String)
    (h : handleStatic pub fs etagOf "GET" url inm = .ok p c) :
    p = posixJoin pub (stripLeadingDotDot (posixNormalize url))
    ∨ p = posixJoin (posixJoin pub (stripLeadingDotDot (posixNormalize url)))
          "index.html" := by
  unfold handleStatic at h
  rw [if_neg (by simp)] at h
  by_cases hsw : jsStartsWith
      (posixJoin pub (stripLeadingDotDot (posixNormalize url))) pub = true
  · rw [if_neg (by simp [hsw])] at h
    cases hfs : fs (posixJoin pub (stripLeadingDotDot (posixNormalize url))) with
    | none => rw [hfs] at h; simp at h
    | some e =>
      cases e with
      | dir =>
        rw [hfs] at h
        by_cases hie : (fs (posixJoin
            (posixJoin pub (stripLeadingDotDot (posixNormalize url))) "index.html")).isSome
        · rw [if_pos hie] at h
          unfold serveFileM at h
          cases hfsi : fs (posixJoin
              (posixJoin pub (stripLeadingDotDot (posixNormalize url))) "index.html") with
          | none => rw [hfsi] at h; simp at h
          | some e2 =>
            cases e2 with
            | dir => rw [hfsi] at h; simp at h
            | file c2 =>
              rw [hfsi] at h
              dsimp only at h
              by_cases hinm : inm = some (etagOf c2)
              · rw [if_pos hinm] at h; simp at h
              · rw [if_neg hinm] at h
                injection h with h1 _
                exact Or.inr h1.symm
        · rw [if_neg hie] at h; simp at h
      | file c0 =>
        rw [hfs] at h
        unfold serveFileM at h
        rw [hfs] at h
        dsimp only at h
        by_cases hinm : inm = some (etagOf c0)
        · rw [if_pos hinm] at h; simp at h
        · rw [if_neg hinm] at h
          injection h with h1 _
          exact Or.inl h1.symm
  · rw [if_pos (by simp [hsw])] at h
    simp at h

/-- C2: the static file server never serves a file outside its public
directory. For every GET request the URL path is normalized, leading `..`
sequences are stripped, and (i) whenever the joined filesystem path does
not start with the public directory the server answers 403 Forbidden with
the same response for every filesystem (so the filesystem is not read);
and (ii) for a public directory `/p1/.../pn` of clean segments, every
path whose contents are returned with status 200 lies under that
directory. -/
theorem static_server_confinement (P : List (List Char)) (hPne : P ≠ [])
    (hP : ∀ s ∈ P, cleanSeg s) (fs : String → Option FsEntry)
    (etagOf : String → String) (urlPath : String) (inm : Option String) :
    (∀ (pub' : String) (fs' : String → Option FsEntry),
        jsStartsWith (posixJoin pub' (stripLeadingDotDot (posixNormalize urlPath)))
          pub' = false →
        handleStatic pub' fs' etagOf "GET" urlPath inm = .forbidden)
    ∧ (∀ p c, handleStatic ⟨'/' :: joinSegs P⟩ fs etagOf "GET" urlPath inm = .ok p c →
        underDir ⟨'/' :: joinSegs P⟩ p) := by
  constructor
  · intro pub' fs' hsw
    simp [handleStatic, hsw]
  · intro p c hok
    obtain ⟨T, hT, hshape⟩ := posixJoin_under P hPne hP
      (stripDotDot (posixNormalizeChars urlPath.data))
      (stripDotDot_no_dd _ (normalizeChars_dd_lead urlPath.data))
    have hfp : (posixJoin ⟨'/' :: joinSegs P⟩
          (stripLeadingDotDot (posixNormalize urlPath))).data
        = posixJoinChars ('/' :: joinSegs P)
            (stripDotDot (posixNormalizeChars urlPath.data)) := rfl
    have hfpS : posixJoin ⟨'/' :: joinSegs P⟩ (stripLeadingDotDot (posixNormalize urlPath))
          = (⟨'/' :: joinSegs (P ++ T)⟩ : String)
        ∨ posixJoin ⟨'/' :: joinSegs P⟩ (stripLeadingDotDot (posixNormalize urlPath))
          = (⟨'/' :: joinSegs (P ++ T) ++ ['/']⟩ : String) := by
      rcases hshape with h | h
      · exact Or.inl (congrArg String.mk (hfp.trans h))
      · exact Or.inr (congrArg String.mk (hfp.trans h))
    have hunder_fp : underDir ⟨'/' :: joinSegs P⟩
        (posixJoin ⟨'/' :: joinSegs P⟩ (stripLeadingDotDot (posixNormalize urlPath))) := by
      rcases hfpS with h | h
      · rw [h]; exact underDir_of_shape P T hPne _ (Or.inl rfl)
      · rw [h]; exact underDir_of_shape P T hPne _ (Or.inr rfl)
    have hPTne : P ++ T ≠ [] := by
      intro hc; rw [List.append_eq_nil] at hc; exact hPne hc.1
    have hPT : ∀ s ∈ P ++ T, cleanSeg s := by
      intro s hs
      rcases List.mem_append.mp hs with h | h
      · exact hP s h
      · exact hT s h
    have hidxchars : posixJoinChars
        (posixJoin ⟨'/' :: joinSegs P⟩ (stripLeadingDotDot (posixNormalize urlPath))).data
        ("index.html".data)
        = '/' :: joinSegs ((P ++ T) ++ ["index.html".data]) := by
      apply join_index_shape (P ++ T) hPTne hPT
      rcases hfpS with h | h
      · left; rw [h]
      · right; rw [h]
    have hunder_idx : underDir ⟨'/' :: joinSegs P⟩
        (posixJoin (posixJoin ⟨'/' :: joinSegs P⟩
          (stripLeadingDotDot (posixNormalize urlPath))) "index.html") := by
      have heq : posixJoin (posixJoin ⟨'/' :: joinSegs P⟩
            (stripLeadingDotDot (posixNormalize urlPath))) "index.html"
          = (⟨'/' :: joinSegs ((P ++ T) ++ ["index.html".data])⟩ : String) :=
        congrArg String.mk hidxchars
      rw [heq]
      exact underDir_of_shape P (T ++ ["index.html".data]) hPne _
        (Or.inl (by rw [List.append_assoc]))
    rcases handleStatic_ok_path _ fs etagOf urlPath inm p c hok with h | h
    · rw [h]; exact hunder_fp
    · rw [h]; exact hunder_idx

theorem static_server_confinement_witness :
    handleStatic "/a/.." (fun _ => none) (fun c => c) "GET" "/a" none
      = StaticResp.forbidden
    ∧ underDir ⟨'/' :: joinSegs [['p','u','b']]⟩ "/pub/a" := by
  have main := static_server_confinement [['p','u','b']] (by decide) (by decide)
    (fun q => if q = "/pub/a" then some (FsEntry.file "z") else none)
    (fun c => c) "/a" none
  exact ⟨main.1 "/a/.." (fun _ => none) (by decide),
         main.2 "/pub/a" "z" (by decide)⟩

/-- Shallow embedding of the `Cache` interview-answer class: the JS `Map`
is an assoc list in insertion order; `set` stores the value together with
the expiry time `Date.now() + ttl`; `get` returns `none` for a missing
key, deletes the entry and returns `none` when `now` is past its expiry,
and returns the stored value otherwise. -/
structure CacheItem (α : Type) where
  value : α
  expiry : Int
deriving DecidableEq

structure Cache (α : Type) where
  cache : List (String × CacheItem α)
  ttl : Int
deriving DecidableEq

def mapSet {β : Type} (m : List (String × β)) (k : String) (v : β) :
    List (String × β) :=
  match m with
  | [] => [(k, v)]
  | (k0, v0) :: rest =>
    if k0 = k then (k, v) :: rest else (k0, v0) :: mapSet rest k v

def mapGet {β : Type} (m : List (String × β)) (k : String) : Option β :=
  (m.find? (fun q => q.1 == k)).map (fun q => q.2)

def Cache.set {α : Type} (c : Cache α) (now : Int) (k : String) (v : α) :
    Cache α :=
  { c with cache := mapSet c.cache k ⟨v, now + c.ttl⟩ }

def Cache.get {α : Type} (c : Cache α) (now : Int) (k : String) :
    Option α × Cache α :=
  match mapGet c.cache k with
  | none => (none, c)
  | some item =>
    if now > item.expiry then
      (none, { c with cache := c.cache.eraseP (fun q => q.1 == k) })
    else (some item.value, c)

def Cache.invalidate {α : Type} (c : Cache α) (k : String) : Cache α :=
  { c with cache := c.cache.eraseP (fun q => q.1 == k) }

theorem mapSet_find {β : Type} (m : List (String × β)) (k : String) (v : β) :
    (mapSet m k v).find? (fun q => q.1 == k) = some (k, v) := by
  induction m with
  | nil =>
    rw [show mapSet ([] : List (String × β)) k v = [(k, v)] from rfl]
    rw [List.find?_cons_of_pos _ (by simp)]
  | cons hd tl ih =>
    obtain ⟨k0, v0⟩ := hd
    by_cases h : k0 = k
    · simp only [mapSet]
      rw [if_pos h, List.find?_cons_of_pos _ (by simp)]
    · simp only [mapSet]
      rw [if_neg h, List.find?_cons_of_neg _ (by simp [h])]
      exact ih

/-- C6 (amended): the repository does contain cache/eviction logic and a
cache-header-dependent response. The interview-answer `Cache` class stores
each value together with the expiry time `now + ttl`; its `get` at a time
past the stored expiry deletes the entry and returns nothing, while `get`
at or before the expiry returns the stored value; and for every file it
serves, the static file server answers 304 Not Modified exactly when the
client's `If-None-Match` header equals the file's ETag, and 200 with the
file contents otherwise. -/
theorem cache_expiry_and_conditional_get (α : Type) (c : Cache α)
    (now t : Int) (k : String) (v : α) (fs : String → Option FsEntry)
    (etagOf : String → String) (p content : String) (inm : Option String)
    (hfs : fs p = some (FsEntry.file content)) :
    (Cache.set c now k v).cache.find? (fun q => q.1 == k)
      = some (k, ⟨v, now + c.ttl⟩)
    ∧ (∀ item, mapGet c.cache k = some item → t > item.expiry →
        Cache.get c t k
          = (none, { c with cache := c.cache.eraseP (fun q => q.1 == k) }))
    ∧ (∀ item, mapGet c.cache k = some item → ¬ t > item.expiry →
        Cache.get c t k = (some item.value, c))
    ∧ serveFileM fs etagOf inm p
      = (if inm = some (etagOf content) then StaticResp.notModified
         else StaticResp.ok p content) := by
  refine ⟨mapSet_find c.cache k ⟨v, now + c.ttl⟩, ?_, ?_, ?_⟩
  · intro item hfind ht
    unfold Cache.get
    rw [hfind]
    dsimp only
    rw [if_pos ht]
  · intro item hfind ht
    unfold Cache.get
    rw [hfind]
    dsimp only
    rw [if_neg ht]
  · unfold serveFileM
    rw [hfs]

/-- C6 counterexample: the static file server's response depends on the
`If-None-Match` caching header (304 with a matching one, 200 without),
and the `Cache` class stores an expiry time alongside each value and
deletes an expired entry when `get` finds its expiry has passed. -/
theorem no_cache_logic_cex :
    handleStatic "/pub"
      (fun q => if q = "/pub/a" then some (FsEntry.file "z") else none)
      (fun s => "W/" ++ s) "GET" "/a" (some "W/z") = StaticResp.notModified
    ∧ handleStatic "/pub"
      (fun q => if q = "/pub/a" then some (FsEntry.file "z") else none)
      (fun s => "W/" ++ s) "GET" "/a" none = StaticResp.ok "/pub/a" "z"
    ∧ (Cache.set (⟨[], 30000⟩ : Cache Json) 100 "data" (Json.str "v")).cache
      = [("data", ⟨Json.str "v", 30100⟩)]
    ∧ Cache.get (⟨[("data", ⟨Json.str "v", 30100⟩)], 30000⟩ : Cache Json)
        30101 "data"
      = (none, (⟨[], 30000⟩ : Cache Json)) := by
  exact ⟨by decide, by decide, rfl, rfl⟩

theorem cache_expiry_and_conditional_get_witness :
    (Cache.set (⟨[("data", ⟨Json.str "old", 99⟩)], 30000⟩ : Cache Json) 100
        "data" (Json.str "v")).cache.find? (fun q => q.1 == "data")
      = some ("data", ⟨Json.str "v", 30100⟩)
    ∧ Cache.get (⟨[("data", ⟨Json.str "old", 99⟩)], 30000⟩ : Cache Json)
        30101 "data"
      = (none, (⟨[], 30000⟩ : Cache Json))
    ∧ serveFileM (fun q => if q = "/pub/a" then some (FsEntry.file "z") else none)
        (fun s => "W/" ++ s) (some "W/z") "/pub/a" = StaticResp.notModified := by
  have main := cache_expiry_and_conditional_get Json
    ⟨[("data", ⟨Json.str "old", 99⟩)], 30000⟩ 100 30101 "data" (Json.str "v")
    (fun q => if q = "/pub/a" then some (FsEntry.file "z") else none)
    (fun s => "W/" ++ s) "/pub/a" "z" (some "W/z") (by decide)
  refine ⟨main.1, ?_, ?_⟩
  · exact main.2.1 ⟨Json.str "old", 99⟩ rfl (by decide)
  · rw [main.2.2.2]
    decide
